import Mathlib

/-!
Verification of the mail-digest extraction pipeline in `main.py` of the
`aws_news` repository.  The pipeline (lines 142-231 of `main.py`) retrieves
digest mails, parses their bodies into article records, canonicalizes the
article URLs, deduplicates by canonical URL, and writes a raw and a
formatted digest file.  Strings are modelled as `List Char`; the Python
string/regex operations used by the code are embedded as executable Lean
functions that follow the semantics of `re.split`, `re.sub`, `str.split`,
`str.strip` and `str.replace` on the concrete patterns appearing in the
source.  External collaborators (Gmail transport, `datetime.strptime`,
base64url decoding, the OpenAI call) are modelled as oracles or identity
boundaries; everything the claims quantify over is embedded executably.
-/

set_option maxHeartbeats 1000000

namespace AwsNews

/-- Prefix test on character lists: `pfxOf p s = true` iff `p` is an initial
segment of `s`.  Used to model pattern matching at a fixed position in the
scanning semantics of Python's `re` functions. -/
def pfxOf : List Char → List Char → Bool
  | [], _ => true
  | _ :: _, [] => false
  | a :: as, b :: bs => a == b && pfxOf as bs

/-- The delimiter `===` of the alternation `(===|- - - )` in
`re.split('(===|- - - )', body)` (main.py line 161). -/
def EQ3 : List Char := ['=', '=', '=']

/-- The delimiter `- - - ` (dash space dash space dash space) of the
alternation `(===|- - - )` in main.py line 161. -/
def DASH6 : List Char := ['-', ' ', '-', ' ', '-', ' ']

/-- CRLF, the line separator used by `re.split('\r\n', a)`
(main.py lines 163-164). -/
def CRLF : List Char := ['\r', '\n']

/-- The blank-line separator used by `.split('\r\n\r\n')` (main.py line 161). -/
def SEP2 : List Char := ['\r', '\n', '\r', '\n']

/-- The tracking marker `&ct=ga&` of `re.sub('&ct=ga&.*', '', url)`
(main.py line 167). -/
def CTpat : List Char := ['&', 'c', 't', '=', 'g', 'a', '&']

/-- The literal `http` of `re.sub('http.*http', 'http', url)`
(main.py line 166). -/
def HT : List Char := ['h', 't', 't', 'p']

/-- Model of `re.split('(===|- - - )', body)` (main.py line 161): split on
every occurrence of either delimiter, scanning left to right, keeping the
matched delimiters in the result (the pattern has a capture group).  At the
head position `===` is tried before `- - - `, as in the regex alternation. -/
def splitKD : List Char → List (List Char)
  | [] => [[]]
  | c :: rest =>
    if pfxOf EQ3 (c :: rest) then
      [] :: EQ3 :: splitKD ((c :: rest).drop 3)
    else if pfxOf DASH6 (c :: rest) then
      [] :: DASH6 :: splitKD ((c :: rest).drop 6)
    else
      match splitKD rest with
      | [] => [[c]]
      | s :: ss => (c :: s) :: ss
  termination_by s => s.length
  decreasing_by
    · simp; omega
    · simp; omega
    · simp

/-- Model of Python `str.split(sep)` for a fixed non-empty separator (and of
`re.split` on a plain-text pattern): split on every non-overlapping
occurrence of `sep`, scanning left to right, dropping the separators.
Used for `.split('\r\n\r\n')` and `re.split('\r\n', a)` in main.py
lines 161-164. -/
def splitOnSep (sep : List Char) : List Char → List (List Char)
  | [] => [[]]
  | c :: rest =>
    if pfxOf sep (c :: rest) && !sep.isEmpty then
      [] :: splitOnSep sep ((c :: rest).drop sep.length)
    else
      match splitOnSep sep rest with
      | [] => [[c]]
      | s :: ss => (c :: s) :: ss
  termination_by s => s.length
  decreasing_by
    · rename_i h
      simp at h
      have : 1 ≤ sep.length := by
        cases sep with
        | nil => simp at h
        | cons a as => simp
      simp; omega
    · simp

/-- Python whitespace characters stripped by `str.strip()`
(the ASCII ones: space, tab, newline, carriage return, vertical tab,
form feed). -/
def isPySpace (c : Char) : Bool :=
  c == ' ' || c == '\t' || c == '\n' || c == '\r' || c == '\x0b' || c == '\x0c'

/-- Model of Python `str.strip()`: remove leading and trailing whitespace
(main.py lines 163-164). -/
def pyStrip (s : List Char) : List Char :=
  ((s.dropWhile isPySpace).reverse.dropWhile isPySpace).reverse

/-- Model of `re.sub(r'[<>]', '', url)` (main.py line 165): remove every
angle-bracket character. -/
def rmAngles (s : List Char) : List Char :=
  s.filter (fun c => !(c == '<' || c == '>'))

/-- `lastHttpEnd P` is the end position (exclusive) of the last occurrence of
`http` in `P`, if any.  This is where the greedy `.*` of `http.*http` makes
the match end inside the newline-free window `P`. -/
def lastHttpEnd : List Char → Option Nat
  | [] => none
  | c :: rest =>
    match lastHttpEnd rest with
    | some e => some (e + 1)
    | none => if pfxOf HT (c :: rest) then some 4 else none

/-- Length of the match of the regex `http.*http` at the start of `s`, if it
matches there.  Per Python `re` semantics, `.` does not match `\n`, and `.*`
is greedy, so a match at the head consumes the leading `http` plus the
longest newline-free prefix of the rest that ends in `http`. -/
def matchLenH (s : List Char) : Option Nat :=
  if pfxOf HT s then
    match lastHttpEnd ((s.drop 4).takeWhile (fun c => c != '\n')) with
    | some e => some (4 + e)
    | none => none
  else none

/-- Model of `re.sub('http.*http', 'http', url)` (main.py line 166): scan
left to right; at the leftmost position where `http.*http` matches, replace
the (greedy) match by `http` and continue scanning after the match, as
`re.sub` does for every non-overlapping occurrence. -/
def subH : List Char → List Char
  | [] => []
  | c :: rest =>
    match _h : matchLenH (c :: rest) with
    | some k => HT ++ subH ((c :: rest).drop k)
    | none => c :: subH rest
  termination_by s => s.length
  decreasing_by
    · have hk : 4 ≤ k := by
        unfold matchLenH at _h
        split at _h
        · split at _h
          · simp at _h; omega
          · simp at _h
        · simp at _h
      simp
      omega
    · simp

/-- Length of the match of the regex `&ct=ga&.*` at the start of `s`, if it
matches there: the marker `&ct=ga&` plus (greedily) everything up to the
next newline or the end of the string (`.` does not match `\n`). -/
def matchLenCt (s : List Char) : Option Nat :=
  if pfxOf CTpat s then
    some (7 + ((s.drop 7).takeWhile (fun c => c != '\n')).length)
  else none

/-- Model of `re.sub('&ct=ga&.*', '', url)` (main.py line 167): scan left to
right; at each position where `&ct=ga&.*` matches, delete the match (the
marker and everything up to the next newline or end) and continue after
it. -/
def subCt : List Char → List Char
  | [] => []
  | c :: rest =>
    match _h : matchLenCt (c :: rest) with
    | some k => subCt ((c :: rest).drop k)
    | none => c :: subCt rest
  termination_by s => s.length
  decreasing_by
    · have hk : 7 ≤ k := by
        unfold matchLenCt at _h
        split at _h
        · simp at _h; omega
        · simp at _h
      simp
      omega
    · simp

/-- URL canonicalization, the composition of the three substitutions of
main.py lines 165-167 in source order: remove `<`/`>`, collapse
`http.*http` to `http`, delete `&ct=ga&.*`. -/
def canonicalize (u : List Char) : List Char :=
  subCt (subH (rmAngles u))

/-- `noMatCt s = true` iff the regex `&ct=ga&.*` matches at no position of
`s` (i.e. `re.sub('&ct=ga&.*', '', s)` would leave `s` unchanged). -/
def noMatCt : List Char → Bool
  | [] => true
  | c :: rest => (matchLenCt (c :: rest)).isNone && noMatCt rest

/-- `noMatH s = true` iff the regex `http.*http` matches at no position of
`s` (i.e. `re.sub('http.*http', 'http', s)` would leave `s` unchanged). -/
def noMatH : List Char → Bool
  | [] => true
  | c :: rest => (matchLenH (c :: rest)).isNone && noMatH rest

/-- Join a list of parts with a separator between consecutive parts
(the inverse image of a separator split). -/
def joinSep (sep : List Char) : List (List Char) → List Char
  | [] => []
  | [p] => p
  | p :: ps => p ++ sep ++ joinSep sep ps

/-- A part is safe for splitting on `sep` if no occurrence of `sep` starts
strictly inside the part, even using characters of a directly following
separator.  (`pfxOf sep (s ++ sep)` inspects only the first `sep.length`
characters, which is all a match starting inside the part can reach.) -/
def SafePart (sep p : List Char) : Prop :=
  ∀ s : List Char, s <:+ p → s ≠ [] → pfxOf sep (s ++ sep) = false

/-- The Python slice `[1:-1]` on a list of chunks (main.py line 161). -/
def dropEnds (l : List (List Char)) : List (List Char) :=
  (l.drop 1).dropLast

/-- Parse one blank-line-separated article block (main.py lines 163-164):
the summary is all lines but the last joined without separator and
stripped, the URL is the stripped last line. -/
def parseBlock (a : List Char) : List Char × List Char :=
  (pyStrip ((splitOnSep CRLF a).dropLast.flatten),
   pyStrip ((splitOnSep CRLF a).getLastD []))

/-- Article extraction from one message body (main.py lines 161-164):
take segment 4 of the delimiter-keeping split (`none` models the
`IndexError` raised when fewer than 5 segments exist), split it on blank
lines, drop the first and last chunk, and parse each remaining block. -/
def extractRaw (body : List Char) : Option (List (List Char × List Char)) :=
  match (splitKD body).get? 4 with
  | none => none
  | some seg => some ((dropEnds (splitOnSep SEP2 seg)).map parseBlock)

/-- Synthetic article block per the digest conventions: summary lines and
URL line joined by CRLF. -/
def mkBlock (lines : List (List Char)) (url : List Char) : List Char :=
  joinSep CRLF (lines ++ [url])

/-- Synthetic article section: header boilerplate, article blocks and footer
boilerplate separated by blank lines. -/
def mkSection (hdr ftr : List Char) (blocks : List (List Char)) : List Char :=
  joinSep SEP2 (hdr :: (blocks ++ [ftr]))

/-- Synthetic digest body with two delimiters before the article section, so
that the section is segment 4 of the delimiter-keeping split. -/
def mkBody (pre0 pre1 sec : List Char) : List Char :=
  pre0 ++ EQ3 ++ (pre1 ++ EQ3 ++ sec)

/-- Start positions of the occurrences of `http` in `s`, in order. -/
def httpStarts (s : List Char) : List Nat :=
  (List.range s.length).filter (fun i => pfxOf HT (s.drop i))

/-- Truncation at the first occurrence of `&ct=ga&`, discarding the marker
and everything after it. -/
def truncCt : List Char → List Char
  | [] => []
  | c :: rest => if pfxOf CTpat (c :: rest) then [] else c :: truncCt rest

/-- Canonicalization as claim C2 words it: remove `<`/`>`; if the string
contains two occurrences of `http`, keep only the text from the second
occurrence onward, discarding everything before it; then truncate at the
first `&ct=ga&`. -/
def canonSpecClaim (u : List Char) : List Char :=
  let s := rmAngles u
  let s2 := match (httpStarts s).get? 1 with
    | some i => s.drop i
    | none => s
  truncCt s2

/-- A Python `datetime` value as far as comparison is concerned: an
offset-aware or offset-naive timestamp.  `datetime.strptime` with a `%z`
directive produces an aware value; `datetime.now()` produces a naive one. -/
inductive PyDatetime where
  | aware (t : Int)
  | naive (t : Int)
deriving DecidableEq

/-- The timestamp value of a datetime, ignoring awareness. -/
def dVal : PyDatetime → Int
  | .aware t => t
  | .naive t => t

/-- Python `<` on datetimes: comparing an offset-aware and an offset-naive
datetime raises `TypeError`, modelled as `none`. -/
def pyDtLt : PyDatetime → PyDatetime → Option Bool
  | .aware a, .aware b => some (decide (a < b))
  | .naive a, .naive b => some (decide (a < b))
  | _, _ => none

/-- A normalized mail message as built by `get_emails_by_subject`
(main.py lines 126-133). -/
structure Email where
  subject : String
  sender : String
  date : PyDatetime
  body : List Char
deriving DecidableEq

/-- One step of a stable descending insertion by date.  An element is
inserted after every element whose date is not smaller, which is exactly the
placement of Python's stable `list.sort(key=..., reverse=True)`; a failing
datetime comparison (TypeError) aborts, modelled as `none`. -/
def insertDescE (x : Email) : List Email → Option (List Email)
  | [] => some [x]
  | y :: ys =>
    match pyDtLt y.date x.date with
    | none => none
    | some true => some (x :: y :: ys)
    | some false =>
      match insertDescE x ys with
      | none => none
      | some zs => some (y :: zs)

/-- Insert the elements of a list one by one (stable insertion sort). -/
def sortAuxE : List Email → List Email → Option (List Email)
  | [], acc => some acc
  | x :: xs, acc =>
    match insertDescE x acc with
    | none => none
    | some acc2 => sortAuxE xs acc2

/-- Model of `email_list.sort(key=lambda x: x['date'], reverse=True)`
(main.py line 138).  Python's sort is stable, and a stable sort by a fixed
key is unique, so stable insertion sort computes the same list;  a
`TypeError` from comparing an aware and a naive datetime propagates
(`none`). -/
def sortEmailsE (l : List Email) : Option (List Email) :=
  sortAuxE l []

/-- One MIME part of a multi-part payload; `dataTxt` is the decoded text of
`part['body']['data']` (base64url decoding is an external bijection and is
modelled as the identity on decoded text). -/
structure Part where
  mimeType : String
  dataTxt : List Char
deriving DecidableEq

/-- A Gmail message payload: headers, the optional `parts` list (`'parts' in
msg['payload']`), and the optional decoded top-level body data (present iff
`'body' in payload and 'data' in payload['body']`). -/
structure Payload where
  headers : List (String × String)
  parts : Option (List Part)
  bodyData : Option (List Char)
deriving DecidableEq

/-- Model of `next((h['value'] for h in headers if h['name'] == name),
default)` (main.py lines 85-89). -/
def getHeader (hs : List (String × String)) (name dflt : String) : String :=
  match hs.find? (fun h => h.1 == name) with
  | some h => h.2
  | none => dflt

/-- Model of the body extraction of main.py lines 116-123: if the payload
has a `parts` key, only the first `text/plain` part is used (empty string if
none matches, even when top-level body data exists); only otherwise the
top-level body data is used when present; otherwise the empty string. -/
def extractBody (p : Payload) : List Char :=
  match p.parts with
  | some parts =>
    match parts.find? (fun part => part.mimeType == "text/plain") with
    | some part => part.dataTxt
    | none => []
  | none =>
    match p.bodyData with
    | some d => d
    | none => []

/-- Body extraction as claim C7 words it: prefer the first `text/plain`
part; otherwise use the top-level body when present; otherwise empty — in
particular a multi-part payload with no `text/plain` part falls back to the
top-level body. -/
def extractBodyClaim (p : Payload) : List Char :=
  match p.parts with
  | some parts =>
    match parts.find? (fun part => part.mimeType == "text/plain") with
    | some part => part.dataTxt
    | none =>
      match p.bodyData with
      | some d => d
      | none => []
  | none =>
    match p.bodyData with
    | some d => d
    | none => []

/-- The ordered format list of main.py lines 92-96. -/
def dateFormats : List String :=
  ["%a, %d %b %Y %H:%M:%S %z",
   "%a, %d %b %Y %H:%M:%S %z (%Z)",
   "%d %b %Y %H:%M:%S %z"]

/-- Length of the match of the regex `\([^)]*\)` at the start of `s`, if it
matches there: an opening paren, a maximal run of non-`)` characters, and a
closing paren. -/
def matchLenPar (s : List Char) : Option Nat :=
  match s with
  | c :: rest =>
    if c = '(' ∧ (rest.drop ((rest.takeWhile (fun x => x != ')')).length)).head? = some ')' then
      some ((rest.takeWhile (fun x => x != ')')).length + 2)
    else none
  | [] => none

/-- Model of `re.sub(r'\([^)]*\)', '', date_str)` (main.py line 102):
delete every parenthesized group. -/
def rmParen : List Char → List Char
  | [] => []
  | c :: rest =>
    match _h : matchLenPar (c :: rest) with
    | some k => rmParen ((c :: rest).drop k)
    | none => c :: rmParen rest
  termination_by s => s.length
  decreasing_by
    · have hk : 2 ≤ k := by
        unfold matchLenPar at _h
        split at _h
        · split at _h
          · simp at _h; omega
          · simp at _h
        · simp at _h
      simp
      omega
    · simp

/-- The cleaned date string of main.py line 102: parenthesized timezone
names removed, then stripped. -/
def cleanDate (s : List Char) : List Char :=
  pyStrip (rmParen s)

/-- Model of the date normalization of main.py lines 89-113, with
`datetime.strptime` as an oracle mapping a format and a cleaned string to an
optional timestamp.  The formats are tried in order; the first success wins
and yields an offset-aware datetime (every format carries `%z`); if all fail
the current wall-clock time is used, which is offset-naive. -/
def normalizeDate (strptime : String → List Char → Option Int) (now : Int)
    (dateStr : List Char) : PyDatetime :=
  match dateFormats.findSome? (fun fmt => strptime fmt (cleanDate dateStr)) with
  | some t => .aware t
  | none => .naive now

/-- Build one normalized message record from a payload
(main.py lines 84-133). -/
def buildEmail (strptime : String → List Char → Option Int) (now : Int)
    (p : Payload) : Email :=
  { subject := getHeader p.headers "Subject" "No Subject"
    sender := getHeader p.headers "From" "Unknown"
    date := normalizeDate strptime now (getHeader p.headers "Date" "").toList
    body := extractBody p }

/-- Model of `get_emails_by_subject` after the provider query
(main.py lines 76-140): build one record per message, then sort by date
descending; `none` models the `TypeError` escaping from the sort. -/
def getEmails (strptime : String → List Char → Option Int) (now : Int)
    (msgs : List Payload) : Option (List Email) :=
  sortEmailsE (msgs.map (buildEmail strptime now))

/-- An extracted article: summary text and URL. -/
abbrev Article := List Char × List Char

/-- The mutable state of the extraction loop of main.py lines 157-173: the
accumulated `articles` list and the accumulated `urls` list. -/
abbrev DState := List Article × List (List Char)

/-- One iteration of the deduplication gate (main.py lines 168-173): keep
the article and record its URL only if the canonical URL was not seen
before. -/
def dedupStep (st : DState) (x : Article) : DState :=
  if x.2 ∈ st.2 then st else (st.1 ++ [x], st.2 ++ [x.2])

/-- The extraction loop of main.py lines 157-173 over the sorted message
list: extract the blocks of each body (propagating the `IndexError` of a
malformed body as `none`), canonicalize each URL, and run the deduplication
gate, threading the shared state across messages. -/
def processEmails : List Email → DState → Option DState
  | [], st => some st
  | e :: rest, st =>
    match extractRaw e.body with
    | none => none
    | some arts =>
      processEmails rest ((arts.map (fun a => (a.1, canonicalize a.2))).foldl dedupStep st)

/-- The whole extraction/dedup pass starting from the empty state
(main.py lines 157-158). -/
def runPipeline (emails : List Email) : Option DState :=
  processEmails emails ([], [])

/-- Loop invariant of the extraction/dedup pass: the seen-URL accumulator
is exactly the sequence of canonical URLs of the accumulated articles, and
it has no duplicates. -/
def Inv (st : DState) : Prop :=
  st.2 = st.1.map Prod.snd ∧ st.2.Nodup

/-- Descending order by normalized timestamp: `a` comes no later than `b`
iff `b`'s timestamp is not larger. -/
def DGE (a b : Email) : Prop :=
  dVal b.date ≤ dVal a.date

/-- Gregorian leap-year test (as in Python's `datetime`). -/
def isLeap (y : Nat) : Bool :=
  (y % 4 == 0 && y % 100 != 0) || y % 400 == 0

/-- Month lengths of year `y`. -/
def monthDays (y : Nat) : List Nat :=
  [31, if isLeap y then 29 else 28, 31, 30, 31, 30, 31, 31, 30, 31, 30, 31]

/-- A calendar date (as carried by Python's `datetime.datetime`). -/
structure Date where
  y : Nat
  m : Nat
  d : Nat
deriving DecidableEq

/-- Python's `date.toordinal`: day number with 0001-01-01 as day 1. -/
def toOrdinal (dt : Date) : Nat :=
  365 * (dt.y - 1) + (dt.y - 1) / 4 + (dt.y - 1) / 400 - (dt.y - 1) / 100
    + ((monthDays dt.y).take (dt.m - 1)).sum + dt.d

/-- Walk the month lengths to turn a day-of-year into month and day. -/
def findMonthAux : Nat → Nat → List Nat → Nat × Nat
  | m, doy, [] => (m, doy)
  | m, doy, md :: rest => if doy ≤ md then (m, doy) else findMonthAux (m + 1) (doy - md) rest

/-- Python's `date.fromordinal` (the `_ord2ymd` algorithm): decompose into
400/100/4/1-year cycles, then find the month. -/
def fromOrdinal (nn : Nat) : Date :=
  let n0 := nn - 1
  let n400 := n0 / 146097
  let r400 := n0 % 146097
  let n100 := r400 / 36524
  let r100 := r400 % 36524
  let n4 := r100 / 1461
  let r4 := r100 % 1461
  let n1 := r4 / 365
  let r1 := r4 % 365
  let year := 400 * n400 + 100 * n100 + 4 * n4 + n1 + 1
  if n1 == 4 || n100 == 4 then
    ⟨year - 1, 12, 31⟩
  else
    let md := findMonthAux 1 (r1 + 1) (monthDays year)
    ⟨year, md.1, md.2⟩

/-- Model of `after_date + timedelta(days=k)` (main.py line 150): convert to
an ordinal, add, convert back. -/
def addDays (k : Nat) (dt : Date) : Date :=
  fromOrdinal (toOrdinal dt + k)

/-- Decimal digit character. -/
def digitChar (n : Nat) : Char :=
  Char.ofNat (48 + n)

/-- Decimal digits of `n` (with explicit fuel to stay structural). -/
def natCharsF : Nat → Nat → List Char
  | 0, _ => []
  | fuel + 1, n => if n < 10 then [digitChar n] else natCharsF fuel (n / 10) ++ [digitChar (n % 10)]

/-- Decimal rendering of a natural number. -/
def natChars (n : Nat) : List Char :=
  natCharsF (n + 1) n

/-- Zero-pad a digit string on the left to width `k` (as `%Y`, `%m`, `%d`
do). -/
def padTo (k : Nat) (ds : List Char) : List Char :=
  List.replicate (k - ds.length) '0' ++ ds

/-- Model of `strftime(r'%Y/%m/%d')` (main.py lines 149-150). -/
def fmtYMD (dt : Date) : List Char :=
  padTo 4 (natChars dt.y) ++ ['/'] ++ padTo 2 (natChars dt.m) ++ ['/'] ++ padTo 2 (natChars dt.d)

/-- The Gmail query of main.py line 151. -/
def queryOf (subjectFilter : List Char) (after : Date) : List Char :=
  "subject:".toList ++ subjectFilter ++ " after:".toList ++ fmtYMD after
    ++ " before:".toList ++ fmtYMD (addDays 6 after)

/-- Model of `str.replace(old, new)`: replace every non-overlapping
occurrence, scanning left to right (main.py lines 179-180 with
`replace('/', '')` and line 225 with `replace('.txt', '_formatted.txt')`). -/
def replaceAll (old new : List Char) (s : List Char) : List Char :=
  joinSep new (splitOnSep old s)

/-- The raw-digest output filename (main.py lines 179-181). -/
def outName (after : Date) : List Char :=
  "output_".toList ++ replaceAll ['/'] [] (fmtYMD after) ++ ['-']
    ++ replaceAll ['/'] [] (fmtYMD (addDays 6 after)) ++ ".txt".toList

/-- The formatted-digest output filename (main.py line 225). -/
def outNameFmt (after : Date) : List Char :=
  replaceAll ".txt".toList "_formatted.txt".toList (outName after)

/-- A concrete `strptime` oracle for witness runs: parses exactly one
RFC-2822 date string under the first format. -/
def spOracle : String → List Char → Option Int := fun fmt s =>
  if fmt == "%a, %d %b %Y %H:%M:%S %z" && s == "Mon, 05 May 2025 10:00:00 +0900".toList then
    some 1746410400
  else none

/-- A payload whose Date header parses (yielding an aware datetime). -/
def msgGood : Payload :=
  ⟨[("Subject", "AWS News"), ("From", "a@example.com"),
    ("Date", "Mon, 05 May 2025 10:00:00 +0900")], none, some "hi".toList⟩

/-- A payload whose Date header does not parse (falling back to a naive
`datetime.now()`). -/
def msgBad : Payload :=
  ⟨[("Subject", "AWS News"), ("From", "a@example.com"),
    ("Date", "not a date")], none, some "hi".toList⟩

/-! ### Generic facts about `pfxOf` -/

theorem pfx_len {p s : List Char} (h : pfxOf p s = true) : p.length ≤ s.length := by
  induction p generalizing s with
  | nil => simp
  | cons a as ih =>
    cases s with
    | nil => simp [pfxOf] at h
    | cons b bs =>
      simp only [pfxOf, Bool.and_eq_true] at h
      simpa using ih h.2

theorem pfx_exists {p s : List Char} (h : pfxOf p s = true) : ∃ t, s = p ++ t := by
  induction p generalizing s with
  | nil => exact ⟨s, rfl⟩
  | cons a as ih =>
    cases s with
    | nil => simp [pfxOf] at h
    | cons b bs =>
      simp only [pfxOf, Bool.and_eq_true, beq_iff_eq] at h
      obtain ⟨t, ht⟩ := ih h.2
      exact ⟨t, by simp [h.1, ht]⟩

theorem pfx_append_self (p y : List Char) : pfxOf p (p ++ y) = true := by
  induction p with
  | nil => rfl
  | cons a as ih => simp [pfxOf, ih]

theorem pfx_ext {p x : List Char} (h : pfxOf p x = true) (y : List Char) :
    pfxOf p (x ++ y) = true := by
  induction p generalizing x with
  | nil => rfl
  | cons a as ih =>
    cases x with
    | nil => simp [pfxOf] at h
    | cons b bs =>
      simp only [List.cons_append, pfxOf, Bool.and_eq_true] at h ⊢
      exact ⟨h.1, ih h.2⟩

theorem pfx_append_long {p x : List Char} (h : p.length ≤ x.length) (y : List Char) :
    pfxOf p (x ++ y) = pfxOf p x := by
  induction p generalizing x with
  | nil => rfl
  | cons a as ih =>
    cases x with
    | nil => simp at h
    | cons b bs =>
      simp only [List.cons_append, pfxOf, List.append_eq]
      simp only [List.length_cons] at h
      rw [ih (by omega)]

theorem pfx_take {p x : List Char} {m : Nat} (h : pfxOf p (x.take m) = true) :
    pfxOf p x = true := by
  induction p generalizing x m with
  | nil => rfl
  | cons a as ih =>
    cases x with
    | nil => simp at h; simp [pfxOf] at h
    | cons b bs =>
      cases m with
      | zero => simp [pfxOf] at h
      | succ m2 =>
        simp only [List.take_succ_cons, pfxOf, Bool.and_eq_true] at h ⊢
        exact ⟨h.1, ih h.2⟩

/-! ### Equation lemmas for the scanning functions -/

theorem subCt_nil : subCt [] = [] := by rw [subCt]

theorem subCt_cons_some {c : Char} {rest : List Char} {k : Nat}
    (h : matchLenCt (c :: rest) = some k) :
    subCt (c :: rest) = subCt ((c :: rest).drop k) := by
  rw [subCt]
  split
  · rename_i k2 h2
    rw [h] at h2
    simp at h2
    rw [h2]
  · rename_i h2
    rw [h] at h2
    simp at h2

theorem subCt_cons_none {c : Char} {rest : List Char}
    (h : matchLenCt (c :: rest) = none) :
    subCt (c :: rest) = c :: subCt rest := by
  rw [subCt]
  split
  · rename_i k2 h2
    rw [h] at h2
    simp at h2
  · rfl

theorem subH_nil : subH [] = [] := by rw [subH]

theorem subH_cons_some {c : Char} {rest : List Char} {k : Nat}
    (h : matchLenH (c :: rest) = some k) :
    subH (c :: rest) = HT ++ subH ((c :: rest).drop k) := by
  rw [subH]
  split
  · rename_i k2 h2
    rw [h] at h2
    simp at h2
    rw [h2]
  · rename_i h2
    rw [h] at h2
    simp at h2

theorem subH_cons_none {c : Char} {rest : List Char}
    (h : matchLenH (c :: rest) = none) :
    subH (c :: rest) = c :: subH rest := by
  rw [subH]
  split
  · rename_i k2 h2
    rw [h] at h2
    simp at h2
  · rfl

theorem matchLenCt_none_iff {s : List Char} :
    matchLenCt s = none ↔ pfxOf CTpat s = false := by
  unfold matchLenCt
  split <;> simp_all

theorem matchLenCt_pos {s : List Char} {k : Nat} (h : matchLenCt s = some k) :
    7 ≤ k := by
  unfold matchLenCt at h
  split at h
  · simp at h
    omega
  · simp at h

theorem matchLenH_pos {s : List Char} {k : Nat} (h : matchLenH s = some k) :
    4 ≤ k := by
  unfold matchLenH at h
  split at h
  · split at h
    · simp at h
      omega
    · simp at h
  · simp at h

/-! ### Facts about `takeWhile`/`dropWhile` scanning windows -/

theorem drop_takeWhile_len (p : Char → Bool) (l : List Char) :
    l.drop (l.takeWhile p).length = l.dropWhile p := by
  induction l with
  | nil => rfl
  | cons c rest ih =>
    by_cases hc : p c
    · simp [List.takeWhile_cons, List.dropWhile_cons, hc, ih]
    · simp [List.takeWhile_cons, List.dropWhile_cons, hc]

theorem dropWhile_nl_shape (l : List Char) :
    l.dropWhile (fun c => c != '\n') = [] ∨
      ∃ b, l.dropWhile (fun c => c != '\n') = '\n' :: b := by
  induction l with
  | nil => left; rfl
  | cons c rest ih =>
    by_cases hc : c = '\n'
    · right
      subst hc
      exact ⟨rest, by simp [List.dropWhile_cons]⟩
    · simpa [List.dropWhile_cons, hc] using ih

theorem takeWhile_all {p : Char → Bool} {l : List Char} (h : ∀ c ∈ l, p c = true) :
    l.takeWhile p = l := by
  induction l with
  | nil => rfl
  | cons c rest ih =>
    rw [List.takeWhile_cons, if_pos (h c (by simp))]
    rw [ih (fun x hx => h x (List.mem_cons_of_mem _ hx))]

theorem takeWhile_append_stop {p : Char → Bool} {a : List Char} {x : Char}
    (ha : ∀ c ∈ a, p c = true) (hx : p x = false) (y : List Char) :
    (a ++ x :: y).takeWhile p = a := by
  induction a with
  | nil => simp [List.takeWhile_cons, hx]
  | cons c rest ih =>
    rw [List.cons_append, List.takeWhile_cons, if_pos (ha c (by simp))]
    rw [ih (fun z hz => ha z (List.mem_cons_of_mem _ hz))]

/-! ### The `&ct=ga&` substitution is idempotent -/

theorem matchLenCt_drop_shape {c : Char} {rest : List Char} {k : Nat}
    (h : matchLenCt (c :: rest) = some k) :
    (c :: rest).drop k = [] ∨ ∃ b, (c :: rest).drop k = '\n' :: b := by
  unfold matchLenCt at h
  split at h
  · simp only [Option.some.injEq] at h
    subst h
    rw [← List.drop_drop, drop_takeWhile_len]
    exact dropWhile_nl_shape _
  · simp at h

theorem subCt_pfx : ∀ n l p, l.length ≤ n → (∀ c ∈ p, c ≠ '\n') →
    pfxOf p (subCt l) = true → pfxOf p l = true := by
  intro n
  induction n with
  | zero =>
    intro l p hl hp h
    have hnil : l = [] := List.eq_nil_of_length_eq_zero (Nat.le_zero.mp hl)
    subst hnil
    rwa [subCt_nil] at h
  | succ n ih =>
    intro l p hl hp h
    cases l with
    | nil => rwa [subCt_nil] at h
    | cons c rest =>
      cases hm : matchLenCt (c :: rest) with
      | some k =>
        rw [subCt_cons_some hm] at h
        rcases matchLenCt_drop_shape hm with hd | ⟨b, hd⟩
        · rw [hd, subCt_nil] at h
          cases p with
          | nil => rfl
          | cons a as => simp [pfxOf] at h
        · rw [hd] at h
          have hnl : matchLenCt ('\n' :: b) = none := by
            rw [matchLenCt_none_iff]
            simp [pfxOf, CTpat]
          rw [subCt_cons_none hnl] at h
          cases p with
          | nil => rfl
          | cons a as =>
            simp only [pfxOf, Bool.and_eq_true, beq_iff_eq] at h
            exact absurd h.1 (hp a (by simp))
      | none =>
        rw [subCt_cons_none hm] at h
        cases p with
        | nil => rfl
        | cons a as =>
          simp only [pfxOf, Bool.and_eq_true] at h ⊢
          refine ⟨h.1, ?_⟩
          have hlen : rest.length ≤ n := by
            simp only [List.length_cons] at hl
            omega
          exact ih rest as hlen (fun x hx => hp x (List.mem_cons_of_mem _ hx)) h.2

theorem subCt_noMat : ∀ n l, l.length ≤ n → noMatCt (subCt l) = true := by
  intro n
  induction n with
  | zero =>
    intro l hl
    have hnil : l = [] := List.eq_nil_of_length_eq_zero (Nat.le_zero.mp hl)
    subst hnil
    rw [subCt_nil]
    rfl
  | succ n ih =>
    intro l hl
    cases l with
    | nil => rw [subCt_nil]; rfl
    | cons c rest =>
      cases hm : matchLenCt (c :: rest) with
      | some k =>
        rw [subCt_cons_some hm]
        have hk := matchLenCt_pos hm
        have hlen : ((c :: rest).drop k).length ≤ n := by
          simp only [List.length_drop, List.length_cons]
          simp only [List.length_cons] at hl
          omega
        exact ih _ hlen
      | none =>
        rw [subCt_cons_none hm]
        simp only [noMatCt, Bool.and_eq_true, Option.isNone_iff_eq_none]
        have hlen : rest.length ≤ n := by
          simp only [List.length_cons] at hl
          omega
        refine ⟨?_, ih rest hlen⟩
        rw [matchLenCt_none_iff]
        by_contra hcon
        rw [Bool.not_eq_false] at hcon
        have hsplit : (('&' : Char) == c) = true ∧
            pfxOf ['c', 't', '=', 'g', 'a', '&'] (subCt rest) = true := by
          simpa [CTpat, pfxOf, Bool.and_eq_true] using hcon
        have h2 : pfxOf ['c', 't', '=', 'g', 'a', '&'] rest = true :=
          subCt_pfx n rest _ hlen (by decide) hsplit.2
        have h3 : matchLenCt (c :: rest) ≠ none := by
          rw [Ne, matchLenCt_none_iff]
          have hc : c = '&' := by
            have h4 := hsplit.1
            rw [beq_iff_eq] at h4
            exact h4.symm
          simp [CTpat, pfxOf, hc, h2]
        exact h3 hm

theorem subCt_id : ∀ l, noMatCt l = true → subCt l = l := by
  intro l
  induction l with
  | nil => intro _; exact subCt_nil
  | cons c rest ih =>
    intro h
    simp only [noMatCt, Bool.and_eq_true, Option.isNone_iff_eq_none] at h
    rw [subCt_cons_none h.1, ih h.2]

theorem subCt_idem (l : List Char) : subCt (subCt l) = subCt l :=
  subCt_id _ (subCt_noMat l.length l le_rfl)

/-! ### The `http.*http` substitution is idempotent -/

theorem lastHttpEnd_none_cons {c : Char} {r : List Char}
    (h : lastHttpEnd (c :: r) = none) :
    lastHttpEnd r = none ∧ pfxOf HT (c :: r) = false := by
  simp only [lastHttpEnd] at h
  cases hr : lastHttpEnd r with
  | some e => rw [hr] at h; simp at h
  | none =>
    rw [hr] at h
    refine ⟨rfl, ?_⟩
    by_contra hcon
    rw [Bool.not_eq_false] at hcon
    rw [if_pos hcon] at h
    simp at h

theorem lastHttpEnd_none_drop {l : List Char} (h : lastHttpEnd l = none) :
    ∀ m, lastHttpEnd (l.drop m) = none := by
  induction l with
  | nil => intro m; simp [List.drop_nil]; rfl
  | cons c r ih =>
    intro m
    cases m with
    | zero => simpa using h
    | succ m2 =>
      simp only [List.drop_succ_cons]
      exact ih (lastHttpEnd_none_cons h).1 m2

theorem lastHttpEnd_none_take {l : List Char} (h : lastHttpEnd l = none) :
    ∀ m, lastHttpEnd (l.take m) = none := by
  induction l with
  | nil => intro m; simp [List.take_nil]; rfl
  | cons c r ih =>
    intro m
    cases m with
    | zero => rfl
    | succ m2 =>
      have hc := lastHttpEnd_none_cons h
      simp only [List.take_succ_cons, lastHttpEnd]
      rw [ih hc.1 m2]
      rw [if_neg ?_]
      intro hcon
      have hcon2 : pfxOf HT ((c :: r).take (m2 + 1)) = true := by
        simpa [List.take_succ_cons] using hcon
      have : pfxOf HT (c :: r) = true := pfx_take hcon2
      rw [this] at hc
      exact Bool.true_eq_false.mp hc.2

theorem lastHttpEnd_cons_some {r : List Char} {e2 : Nat}
    (hr : lastHttpEnd r = some e2) (c : Char) :
    lastHttpEnd (c :: r) = some (e2 + 1) := by
  simp only [lastHttpEnd, hr]

theorem lastHttpEnd_cons_none {r : List Char} (hr : lastHttpEnd r = none) (c : Char) :
    lastHttpEnd (c :: r) = if pfxOf HT (c :: r) then some 4 else none := by
  simp only [lastHttpEnd, hr]

theorem lastHttpEnd_some_le {l : List Char} {e : Nat} (h : lastHttpEnd l = some e) :
    e ≤ l.length := by
  induction l generalizing e with
  | nil => simp [lastHttpEnd] at h
  | cons c r ih =>
    cases hr : lastHttpEnd r with
    | some e2 =>
      rw [lastHttpEnd_cons_some hr] at h
      simp at h
      have := ih hr
      simp only [List.length_cons]
      omega
    | none =>
      rw [lastHttpEnd_cons_none hr] at h
      split at h
      · rename_i hpfx
        simp at h
        have hlen := pfx_len hpfx
        simp only [HT, List.length_cons] at hlen
        simp only [List.length_cons]
        omega
      · simp at h

theorem lastHttpEnd_some_drop {l : List Char} {e : Nat} (h : lastHttpEnd l = some e) :
    lastHttpEnd (l.drop e) = none := by
  induction l generalizing e with
  | nil => simp [lastHttpEnd] at h
  | cons c r ih =>
    cases hr : lastHttpEnd r with
    | some e2 =>
      rw [lastHttpEnd_cons_some hr] at h
      simp at h
      subst h
      simp only [List.drop_succ_cons]
      exact ih hr
    | none =>
      rw [lastHttpEnd_cons_none hr] at h
      split at h
      · simp at h
        subst h
        have hd : (c :: r).drop 4 = r.drop 3 := by simp [List.drop_succ_cons]
        rw [hd]
        exact lastHttpEnd_none_drop hr 3
      · simp at h

theorem pfxHT_some {l : List Char} (h : pfxOf HT l = true) :
    ∃ e, lastHttpEnd l = some e := by
  cases l with
  | nil => simp [pfxOf, HT] at h
  | cons c r =>
    cases he : lastHttpEnd (c :: r) with
    | some e => exact ⟨e, rfl⟩
    | none =>
      have := (lastHttpEnd_none_cons he).2
      rw [h] at this
      exact absurd this (by simp)

theorem pfxHT_clean {a b : List Char} (hln : lastHttpEnd a = none)
    (hb : b = [] ∨ ∃ b2, b = '\n' :: b2) (hne : a ≠ []) :
    pfxOf HT (a ++ b) = false := by
  by_contra hcon
  rw [Bool.not_eq_false] at hcon
  rcases a with _ | ⟨c1, _ | ⟨c2, _ | ⟨c3, _ | ⟨c4, a5⟩⟩⟩⟩
  · exact hne rfl
  · rcases hb with hb | ⟨b2, hb⟩ <;> subst hb <;> simp [pfxOf, HT] at hcon
  · rcases hb with hb | ⟨b2, hb⟩ <;> subst hb <;> simp [pfxOf, HT] at hcon
  · rcases hb with hb | ⟨b2, hb⟩ <;> subst hb <;> simp [pfxOf, HT] at hcon
  · have hlen : HT.length ≤ (c1 :: c2 :: c3 :: c4 :: a5).length := by simp [HT]
    rw [pfx_append_long hlen] at hcon
    obtain ⟨e, he⟩ := pfxHT_some hcon
    rw [he] at hln
    exact Option.noConfusion hln

theorem matchLenH_none_of_nopfx {s : List Char} (hp : pfxOf HT s = false) :
    matchLenH s = none := by
  unfold matchLenH
  rw [hp]
  simp

theorem matchLenH_none_of {s : List Char} (hp : pfxOf HT s = true)
    (hl : lastHttpEnd ((s.drop 4).takeWhile (fun c => c != '\n')) = none) :
    matchLenH s = none := by
  unfold matchLenH
  rw [hp, hl]
  simp

theorem subH_clean_append : ∀ a b : List Char, (∀ c ∈ a, c ≠ '\n') →
    lastHttpEnd a = none → (b = [] ∨ ∃ b2, b = '\n' :: b2) →
    subH (a ++ b) = a ++ subH b := by
  intro a
  induction a with
  | nil => intro b _ _ _; rfl
  | cons c a1 ih =>
    intro b hnl hln hb
    have hcons := lastHttpEnd_none_cons hln
    have hpfx : pfxOf HT ((c :: a1) ++ b) = false := pfxHT_clean hln hb (by simp)
    have hm : matchLenH (c :: (a1 ++ b)) = none := by
      apply matchLenH_none_of_nopfx
      simpa using hpfx
    rw [List.cons_append, subH_cons_none hm]
    rw [ih b (fun x hx => hnl x (List.mem_cons_of_mem _ hx)) hcons.1 hb]
    rfl

theorem subH_takeWhile_eq {u : List Char}
    (h : lastHttpEnd (u.takeWhile (fun c => c != '\n')) = none) :
    (subH u).takeWhile (fun c => c != '\n') = u.takeWhile (fun c => c != '\n') := by
  have hu : u.takeWhile (fun c => c != '\n') ++ u.dropWhile (fun c => c != '\n') = u :=
    List.takeWhile_append_dropWhile _ _
  have hb := dropWhile_nl_shape u
  have ha : ∀ c ∈ u.takeWhile (fun c => c != '\n'), c ≠ '\n' := by
    intro c hc
    have := List.mem_takeWhile_imp hc
    simpa using this
  have hsplit : subH u = u.takeWhile (fun c => c != '\n') ++ subH (u.dropWhile (fun c => c != '\n')) := by
    conv_lhs => rw [← hu]
    exact subH_clean_append _ _ ha h hb
  rw [hsplit]
  rcases hb with hb | ⟨b2, hb⟩
  · rw [hb, subH_nil, List.append_nil]
    exact takeWhile_all (by intro c hc; simpa using ha c hc)
  · rw [hb]
    have hm : matchLenH ('\n' :: b2) = none := matchLenH_none_of_nopfx (by simp [pfxOf, HT])
    rw [subH_cons_none hm]
    exact takeWhile_append_stop (by intro c hc; simpa using ha c hc) (by simp) _

theorem matchLenH_some_parts {s : List Char} {k : Nat} (h : matchLenH s = some k) :
    pfxOf HT s = true ∧
      ∃ e, lastHttpEnd ((s.drop 4).takeWhile (fun c => c != '\n')) = some e ∧ k = 4 + e := by
  unfold matchLenH at h
  split at h
  · rename_i hp
    refine ⟨hp, ?_⟩
    split at h
    · rename_i e he
      simp only [Option.some.injEq] at h
      exact ⟨e, he, h.symm⟩
    · simp at h
  · simp at h

theorem matchLenH_none_cases {s : List Char} (h : matchLenH s = none) :
    pfxOf HT s = false ∨ (pfxOf HT s = true ∧
      lastHttpEnd ((s.drop 4).takeWhile (fun c => c != '\n')) = none) := by
  unfold matchLenH at h
  split at h
  · rename_i hp
    right
    refine ⟨hp, ?_⟩
    split at h
    · simp at h
    · rename_i he
      exact he
  · rename_i hp
    left
    simpa using hp

theorem subH_pfx : ∀ n l p, l.length ≤ n → (∀ c ∈ p, c ≠ 'h') →
    pfxOf p (subH l) = true → pfxOf p l = true := by
  intro n
  induction n with
  | zero =>
    intro l p hl hp h
    have hnil : l = [] := List.eq_nil_of_length_eq_zero (Nat.le_zero.mp hl)
    subst hnil
    rwa [subH_nil] at h
  | succ n ih =>
    intro l p hl hp h
    cases l with
    | nil => rwa [subH_nil] at h
    | cons c rest =>
      cases hm : matchLenH (c :: rest) with
      | some k =>
        rw [subH_cons_some hm] at h
        cases p with
        | nil => rfl
        | cons a as =>
          simp only [HT, List.cons_append, pfxOf, Bool.and_eq_true, beq_iff_eq] at h
          exact absurd h.1 (hp a (by simp))
      | none =>
        rw [subH_cons_none hm] at h
        cases p with
        | nil => rfl
        | cons a as =>
          simp only [pfxOf, Bool.and_eq_true] at h ⊢
          have hlen : rest.length ≤ n := by simp only [List.length_cons] at hl; omega
          exact ⟨h.1, ih rest as hlen (fun x hx => hp x (List.mem_cons_of_mem _ hx)) h.2⟩

theorem window_drop_takeWhile {P Q : List Char} {e : Nat}
    (hP : ∀ x ∈ P, x ≠ '\n') (hQ : Q = [] ∨ ∃ b2, Q = '\n' :: b2)
    (he : e ≤ P.length) :
    ((P ++ Q).drop e).takeWhile (fun x => x != '\n') = P.drop e := by
  rw [List.drop_append_of_le_length he]
  have hPd : ∀ x ∈ P.drop e, (fun x => x != '\n') x = true := by
    intro x hx
    have := hP x (List.drop_subset e P hx)
    simpa using this
  rcases hQ with hq | ⟨b2, hq⟩
  · subst hq
    rw [List.append_nil]
    exact takeWhile_all hPd
  · subst hq
    exact takeWhile_append_stop hPd (by simp) _

theorem subH_noMat : ∀ n l, l.length ≤ n → noMatH (subH l) = true := by
  intro n
  induction n with
  | zero =>
    intro l hl
    have hnil : l = [] := List.eq_nil_of_length_eq_zero (Nat.le_zero.mp hl)
    subst hnil
    rw [subH_nil]
    rfl
  | succ n ih =>
    intro l hl
    cases l with
    | nil => rw [subH_nil]; rfl
    | cons c rest =>
      have hlenr : rest.length ≤ n := by simp only [List.length_cons] at hl; omega
      cases hm : matchLenH (c :: rest) with
      | none =>
        rw [subH_cons_none hm]
        simp only [noMatH, Bool.and_eq_true, Option.isNone_iff_eq_none]
        refine ⟨?_, ih rest hlenr⟩
        rcases matchLenH_none_cases hm with hp | ⟨hp, hwin⟩
        · apply matchLenH_none_of_nopfx
          by_contra hcon
          rw [Bool.not_eq_false] at hcon
          have hparts : (('h' : Char) == c) = true ∧ pfxOf ['t', 't', 'p'] (subH rest) = true := by
            simpa [HT, pfxOf, Bool.and_eq_true] using hcon
          have h2 : pfxOf ['t', 't', 'p'] rest = true :=
            subH_pfx n rest _ hlenr (by decide) hparts.2
          have h3 : pfxOf HT (c :: rest) = true := by
            simp [HT, pfxOf, hparts.1, h2]
          rw [h3] at hp
          exact absurd hp (by simp)
        · obtain ⟨u, hu⟩ := pfx_exists hp
          have hc : c = 'h' ∧ rest = 't' :: 't' :: 'p' :: u := by simpa [HT] using hu
          have e1 : matchLenH ('t' :: 't' :: 'p' :: u) = none :=
            matchLenH_none_of_nopfx (by simp [pfxOf, HT])
          have e2 : matchLenH ('t' :: 'p' :: u) = none :=
            matchLenH_none_of_nopfx (by simp [pfxOf, HT])
          have e3 : matchLenH ('p' :: u) = none :=
            matchLenH_none_of_nopfx (by simp [pfxOf, HT])
          have hsub : subH rest = 't' :: 't' :: 'p' :: subH u := by
            rw [hc.2, subH_cons_none e1, subH_cons_none e2, subH_cons_none e3]
          rw [hsub, hc.1]
          apply matchLenH_none_of
          · simp [pfxOf, HT]
          · have hwin2 : lastHttpEnd (u.takeWhile (fun x => x != '\n')) = none := by
              have hd4 : (c :: rest).drop 4 = u := by
                rw [hc.1, hc.2]
                rfl
              rwa [hd4] at hwin
            have htw := subH_takeWhile_eq hwin2
            rw [show ('h' :: 't' :: 't' :: 'p' :: subH u).drop 4 = subH u from rfl]
            rw [htw]
            exact hwin2
      | some k =>
        rw [subH_cons_some hm]
        obtain ⟨hp, e, he, hk⟩ := matchLenH_some_parts hm
        obtain ⟨u, hu⟩ := pfx_exists hp
        have hc : c = 'h' ∧ rest = 't' :: 't' :: 'p' :: u := by simpa [HT] using hu
        have hd4 : (c :: rest).drop 4 = u := by
          rw [hc.1, hc.2]
          rfl
        have he2 : lastHttpEnd (u.takeWhile (fun x => x != '\n')) = some e := by
          rwa [hd4] at he
        have hdropk : (c :: rest).drop k = u.drop e := by
          rw [hk, ← List.drop_drop, hd4]
        have hePle : e ≤ (u.takeWhile (fun x => x != '\n')).length := lastHttpEnd_some_le he2
        have hrem_tw : ((u.drop e).takeWhile (fun x => x != '\n'))
            = (u.takeWhile (fun x => x != '\n')).drop e := by
          conv_lhs =>
            rw [show u = u.takeWhile (fun x => x != '\n') ++ u.dropWhile (fun x => x != '\n') from
              (List.takeWhile_append_dropWhile _ _).symm]
          exact window_drop_takeWhile
            (by intro x hx; have := List.mem_takeWhile_imp hx; simpa using this)
            (dropWhile_nl_shape u) hePle
        have hrem_none : lastHttpEnd ((u.drop e).takeWhile (fun x => x != '\n')) = none := by
          rw [hrem_tw]
          exact lastHttpEnd_some_drop he2
        have hlenrem : ((c :: rest).drop k).length ≤ n := by
          have hk4 := matchLenH_pos hm
          simp only [List.length_drop, List.length_cons]
          simp only [List.length_cons] at hl
          omega
        rw [hdropk]
        have hfirst : matchLenH (HT ++ subH (u.drop e)) = none := by
          apply matchLenH_none_of
          · exact pfx_append_self _ _
          · rw [show (HT ++ subH (u.drop e)).drop 4 = subH (u.drop e) from by simp [HT]]
            rw [subH_takeWhile_eq hrem_none]
            exact hrem_none
        have hrest : noMatH (subH (u.drop e)) = true := by
          have hh := ih _ hlenrem
          rwa [hdropk] at hh
        simp only [HT, List.cons_append, List.nil_append, noMatH, Bool.and_eq_true,
          Option.isNone_iff_eq_none]
        refine ⟨?_, ?_, ?_, ?_, hrest⟩
        · simpa [HT] using hfirst
        · exact matchLenH_none_of_nopfx (by simp [pfxOf, HT])
        · exact matchLenH_none_of_nopfx (by simp [pfxOf, HT])
        · exact matchLenH_none_of_nopfx (by simp [pfxOf, HT])

theorem subH_id : ∀ l, noMatH l = true → subH l = l := by
  intro l
  induction l with
  | nil => intro _; exact subH_nil
  | cons c rest ih =>
    intro h
    simp only [noMatH, Bool.and_eq_true, Option.isNone_iff_eq_none] at h
    rw [subH_cons_none h.1, ih h.2]

theorem subH_idem (l : List Char) : subH (subH l) = subH l :=
  subH_id _ (subH_noMat l.length l le_rfl)

/-! ### `canonicalize` is idempotent -/

theorem subH_mem : ∀ n l, l.length ≤ n → ∀ c, c ∈ subH l → c ∈ l ∨ c ∈ HT := by
  intro n
  induction n with
  | zero =>
    intro l hl c hc
    have hnil : l = [] := List.eq_nil_of_length_eq_zero (Nat.le_zero.mp hl)
    subst hnil
    rw [subH_nil] at hc
    simp at hc
  | succ n ih =>
    intro l hl c hc
    cases l with
    | nil => rw [subH_nil] at hc; simp at hc
    | cons a rest =>
      cases hm : matchLenH (a :: rest) with
      | some k =>
        rw [subH_cons_some hm] at hc
        rcases List.mem_append.mp hc with hc | hc
        · right; exact hc
        · have hlen : ((a :: rest).drop k).length ≤ n := by
            have := matchLenH_pos hm
            simp only [List.length_drop, List.length_cons]
            simp only [List.length_cons] at hl
            omega
          rcases ih _ hlen c hc with hmem | hmem
          · left
            exact List.drop_subset _ _ hmem
          · right; exact hmem
      | none =>
        rw [subH_cons_none hm] at hc
        rcases List.mem_cons.mp hc with hc | hc
        · left; simp [hc]
        · have hlen : rest.length ≤ n := by simp only [List.length_cons] at hl; omega
          rcases ih rest hlen c hc with hmem | hmem
          · left; exact List.mem_cons_of_mem _ hmem
          · right; exact hmem

theorem subCt_sublist : ∀ n l, l.length ≤ n → List.Sublist (subCt l) l := by
  intro n
  induction n with
  | zero =>
    intro l hl
    have hnil : l = [] := List.eq_nil_of_length_eq_zero (Nat.le_zero.mp hl)
    subst hnil
    rw [subCt_nil]
  | succ n ih =>
    intro l hl
    cases l with
    | nil => rw [subCt_nil]
    | cons c rest =>
      cases hm : matchLenCt (c :: rest) with
      | some k =>
        rw [subCt_cons_some hm]
        have hlen : ((c :: rest).drop k).length ≤ n := by
          have := matchLenCt_pos hm
          simp only [List.length_drop, List.length_cons]
          simp only [List.length_cons] at hl
          omega
        exact (ih _ hlen).trans (List.drop_sublist _ _)
      | none =>
        rw [subCt_cons_none hm]
        have hlen : rest.length ≤ n := by simp only [List.length_cons] at hl; omega
        exact (ih rest hlen).cons₂ c

theorem noMatH_drop {l : List Char} (h : noMatH l = true) :
    ∀ m, noMatH (l.drop m) = true := by
  induction l with
  | nil => intro m; simpa using h
  | cons c rest ih =>
    intro m
    cases m with
    | zero => simpa using h
    | succ m2 =>
      simp only [List.drop_succ_cons]
      simp only [noMatH, Bool.and_eq_true] at h
      exact ih h.2 m2

theorem subCt_takeWhile_take : ∀ n u, u.length ≤ n →
    ∃ m, (subCt u).takeWhile (fun c => c != '\n')
      = (u.takeWhile (fun c => c != '\n')).take m := by
  intro n
  induction n with
  | zero =>
    intro u hu
    have hnil : u = [] := List.eq_nil_of_length_eq_zero (Nat.le_zero.mp hu)
    subst hnil
    exact ⟨0, by simp [subCt_nil]⟩
  | succ n ih =>
    intro u hu
    cases u with
    | nil => exact ⟨0, by simp [subCt_nil]⟩
    | cons c rest =>
      cases hm : matchLenCt (c :: rest) with
      | some k =>
        refine ⟨0, ?_⟩
        rw [subCt_cons_some hm]
        rcases matchLenCt_drop_shape hm with hd | ⟨b, hd⟩
        · rw [hd, subCt_nil]
          simp
        · rw [hd]
          have hnl : matchLenCt ('\n' :: b) = none := by
            rw [matchLenCt_none_iff]
            simp [pfxOf, CTpat]
          rw [subCt_cons_none hnl]
          simp [List.takeWhile_cons]
      | none =>
        rw [subCt_cons_none hm]
        by_cases hc : c = '\n'
        · refine ⟨0, ?_⟩
          subst hc
          simp [List.takeWhile_cons]
        · have hlen : rest.length ≤ n := by simp only [List.length_cons] at hu; omega
          obtain ⟨m, hm2⟩ := ih rest hlen
          refine ⟨m + 1, ?_⟩
          simp only [List.takeWhile_cons, hc]
          rw [if_pos (by simpa using hc), if_pos (by simpa using hc)]
          rw [List.take_succ_cons, hm2]

theorem subCt_noMatH : ∀ n l, l.length ≤ n → noMatH l = true → noMatH (subCt l) = true := by
  intro n
  induction n with
  | zero =>
    intro l hl _
    have hnil : l = [] := List.eq_nil_of_length_eq_zero (Nat.le_zero.mp hl)
    subst hnil
    rw [subCt_nil]
    rfl
  | succ n ih =>
    intro l hl h
    cases l with
    | nil => rw [subCt_nil]; rfl
    | cons c rest =>
      have hlenr : rest.length ≤ n := by simp only [List.length_cons] at hl; omega
      simp only [noMatH, Bool.and_eq_true, Option.isNone_iff_eq_none] at h
      cases hm : matchLenCt (c :: rest) with
      | some k =>
        rw [subCt_cons_some hm]
        have hlen : ((c :: rest).drop k).length ≤ n := by
          have := matchLenCt_pos hm
          simp only [List.length_drop, List.length_cons]
          simp only [List.length_cons] at hl
          omega
        apply ih _ hlen
        exact noMatH_drop (by simp [noMatH, h.1, h.2]) k
      | none =>
        rw [subCt_cons_none hm]
        simp only [noMatH, Bool.and_eq_true, Option.isNone_iff_eq_none]
        refine ⟨?_, ih rest hlenr h.2⟩
        rcases matchLenH_none_cases h.1 with hp | ⟨hp, hwin⟩
        · apply matchLenH_none_of_nopfx
          by_contra hcon
          rw [Bool.not_eq_false] at hcon
          have hparts : (('h' : Char) == c) = true ∧ pfxOf ['t', 't', 'p'] (subCt rest) = true := by
            simpa [HT, pfxOf, Bool.and_eq_true] using hcon
          have h2 : pfxOf ['t', 't', 'p'] rest = true :=
            subCt_pfx n rest _ hlenr (by decide) hparts.2
          have h3 : pfxOf HT (c :: rest) = true := by
            simp [HT, pfxOf, hparts.1, h2]
          rw [h3] at hp
          exact absurd hp (by simp)
        · obtain ⟨u, hu⟩ := pfx_exists hp
          have hc : c = 'h' ∧ rest = 't' :: 't' :: 'p' :: u := by simpa [HT] using hu
          have e1 : matchLenCt ('t' :: 't' :: 'p' :: u) = none := by
            rw [matchLenCt_none_iff]; simp [pfxOf, CTpat]
          have e2 : matchLenCt ('t' :: 'p' :: u) = none := by
            rw [matchLenCt_none_iff]; simp [pfxOf, CTpat]
          have e3 : matchLenCt ('p' :: u) = none := by
            rw [matchLenCt_none_iff]; simp [pfxOf, CTpat]
          have hsub : subCt rest = 't' :: 't' :: 'p' :: subCt u := by
            rw [hc.2, subCt_cons_none e1, subCt_cons_none e2, subCt_cons_none e3]
          rw [hsub, hc.1]
          apply matchLenH_none_of
          · simp [pfxOf, HT]
          · have hwin2 : lastHttpEnd (u.takeWhile (fun x => x != '\n')) = none := by
              have hd4 : (c :: rest).drop 4 = u := by
                rw [hc.1, hc.2]
                rfl
              rwa [hd4] at hwin
            have hulen : u.length ≤ n := by
              simp only [List.length_cons] at hl
              rw [hc.2] at hlenr
              simp only [List.length_cons] at hlenr
              omega
            obtain ⟨m, hmtk⟩ := subCt_takeWhile_take n u hulen
            rw [show ('h' :: 't' :: 't' :: 'p' :: subCt u).drop 4 = subCt u from rfl]
            rw [hmtk]
            exact lastHttpEnd_none_take hwin2 m

theorem rmAngles_id {s : List Char} (h : ∀ c ∈ s, c ≠ '<' ∧ c ≠ '>') :
    rmAngles s = s := by
  unfold rmAngles
  rw [List.filter_eq_self]
  intro a ha
  have := h a ha
  simp [this.1, this.2]

/-- Claim C3: URL canonicalization is idempotent — for every string `x`,
`canonicalize (canonicalize x) = canonicalize x`, where `canonicalize` is
the composition of angle-bracket removal, `http.*http` collapse and
`&ct=ga&.*` truncation in source order (main.py lines 165-167). -/
theorem canonicalize_idem (x : List Char) :
    canonicalize (canonicalize x) = canonicalize x := by
  unfold canonicalize
  have h1 : rmAngles (subCt (subH (rmAngles x))) = subCt (subH (rmAngles x)) := by
    apply rmAngles_id
    intro c hc
    have hc2 : c ∈ subH (rmAngles x) :=
      (subCt_sublist _ _ le_rfl).subset hc
    rcases subH_mem _ _ le_rfl c hc2 with hmem | hmem
    · have := List.of_mem_filter hmem
      constructor <;> intro hcc <;> subst hcc <;> simp at this
    · have hcc : c = 'h' ∨ c = 't' ∨ c = 't' ∨ c = 'p' := by simpa [HT] using hmem
      rcases hcc with h | h | h | h <;> subst h <;> exact ⟨by decide, by decide⟩
  have h2 : subH (subCt (subH (rmAngles x))) = subCt (subH (rmAngles x)) :=
    subH_id _ (subCt_noMatH _ _ le_rfl (subH_noMat _ _ le_rfl))
  rw [h1, h2, subCt_idem]

/-! ### Split/join inverse lemmas -/

theorem splitOnSep_nil (sep : List Char) : splitOnSep sep [] = [[]] := by
  rw [splitOnSep]

theorem splitOnSep_cons_match {sep : List Char} {c : Char} {rest : List Char}
    (hsep : sep ≠ []) (h : pfxOf sep (c :: rest) = true) :
    splitOnSep sep (c :: rest) = [] :: splitOnSep sep ((c :: rest).drop sep.length) := by
  have hcond : (pfxOf sep (c :: rest) && !sep.isEmpty) = true := by
    cases sep with
    | nil => exact absurd rfl hsep
    | cons a as => simp [h]
  rw [splitOnSep, if_pos hcond]

theorem splitOnSep_cons_nomatch {sep : List Char} {c : Char} {rest : List Char}
    (h : pfxOf sep (c :: rest) = false) :
    splitOnSep sep (c :: rest) =
      match splitOnSep sep rest with
      | [] => [[c]]
      | s :: ss => (c :: s) :: ss := by
  rw [splitOnSep, if_neg]
  simp [h]

theorem splitOnSep_ne_nil (sep : List Char) : ∀ n l, l.length ≤ n →
    splitOnSep sep l ≠ [] := by
  intro n
  induction n with
  | zero =>
    intro l hl
    have hnil : l = [] := List.eq_nil_of_length_eq_zero (Nat.le_zero.mp hl)
    subst hnil
    rw [splitOnSep_nil]
    simp
  | succ n ih =>
    intro l hl
    cases l with
    | nil => rw [splitOnSep_nil]; simp
    | cons c rest =>
      cases hp : pfxOf sep (c :: rest) with
      | true =>
        by_cases hsep : sep = []
        · subst hsep
          rw [splitOnSep, if_neg (by simp)]
          cases hs : splitOnSep [] rest <;> simp
        · rw [splitOnSep_cons_match hsep hp]
          simp
      | false =>
        rw [splitOnSep_cons_nomatch hp]
        cases hs : splitOnSep sep rest <;> simp

theorem scan_nomatch {sep : List Char} : ∀ n p, p.length ≤ n →
    (∀ s : List Char, s <:+ p → s ≠ [] → pfxOf sep s = false) →
    splitOnSep sep p = [p] := by
  intro n
  induction n with
  | zero =>
    intro p hl _
    have hnil : p = [] := List.eq_nil_of_length_eq_zero (Nat.le_zero.mp hl)
    subst hnil
    exact splitOnSep_nil sep
  | succ n ih =>
    intro p hl hsafe
    cases p with
    | nil => exact splitOnSep_nil sep
    | cons c rest =>
      have hp : pfxOf sep (c :: rest) = false :=
        hsafe (c :: rest) (List.suffix_refl _) (by simp)
      rw [splitOnSep_cons_nomatch hp]
      have hr : splitOnSep sep rest = [rest] := by
        apply ih rest (by simp only [List.length_cons] at hl; omega)
        intro s hs hne
        exact hsafe s (hs.trans (List.suffix_cons c rest)) hne
      rw [hr]

theorem splitOnSep_match {sep l : List Char} (hsep : sep ≠ []) (hne : l ≠ [])
    (h : pfxOf sep l = true) :
    splitOnSep sep l = [] :: splitOnSep sep (l.drop sep.length) := by
  cases l with
  | nil => exact absurd rfl hne
  | cons c rest => exact splitOnSep_cons_match hsep h

theorem scan_step {sep : List Char} (hsep : sep ≠ []) :
    ∀ p rest2 : List Char, SafePart sep p →
      splitOnSep sep (p ++ sep ++ rest2) = p :: splitOnSep sep rest2 := by
  intro p
  induction p with
  | nil =>
    intro rest2 _
    simp only [List.nil_append]
    rw [splitOnSep_match hsep ?hne (pfx_append_self sep rest2)]
    case hne =>
      cases sep with
      | nil => exact absurd rfl hsep
      | cons a as => simp
    rw [List.drop_left]
  | cons c p1 ih =>
    intro rest2 hsafe
    have hp : pfxOf sep ((c :: p1) ++ sep ++ rest2) = false := by
      have h1 : pfxOf sep ((c :: p1) ++ sep) = false :=
        hsafe (c :: p1) (List.suffix_refl _) (by simp)
      have h2 : sep.length ≤ ((c :: p1) ++ sep).length := by
        simp
        omega
      rw [pfx_append_long h2 rest2]
      exact h1
    have hform : (c :: p1) ++ sep ++ rest2 = c :: (p1 ++ sep ++ rest2) := by
      simp
    rw [hform] at hp ⊢
    rw [splitOnSep_cons_nomatch hp]
    have hr : splitOnSep sep (p1 ++ sep ++ rest2) = p1 :: splitOnSep sep rest2 := by
      apply ih rest2
      intro s hs hne
      exact hsafe s (hs.trans (List.suffix_cons c p1)) hne
    rw [hr]

theorem joinSep_cons2 {sep p : List Char} {ps : List (List Char)} (h : ps ≠ []) :
    joinSep sep (p :: ps) = p ++ sep ++ joinSep sep ps := by
  cases ps with
  | nil => exact absurd rfl h
  | cons q qs => rfl

theorem splitOnSep_joinSep {sep : List Char} (hsep : sep ≠ []) :
    ∀ parts, parts ≠ [] → (∀ p ∈ parts, SafePart sep p) →
      splitOnSep sep (joinSep sep parts) = parts := by
  intro parts
  induction parts with
  | nil => intro h _; exact absurd rfl h
  | cons p ps ih =>
    intro _ hsafe
    cases ps with
    | nil =>
      show splitOnSep sep (joinSep sep [p]) = [p]
      have hj : joinSep sep [p] = p := rfl
      rw [hj]
      apply scan_nomatch p.length p le_rfl
      intro s hs hne
      have h1 : pfxOf sep (s ++ sep) = false := hsafe p (by simp) s hs hne
      cases hp : pfxOf sep s with
      | false => rfl
      | true =>
        rw [pfx_ext hp sep] at h1
        exact absurd h1 (by simp)
    | cons q qs =>
      rw [joinSep_cons2 (by simp)]
      rw [scan_step hsep p _ (hsafe p (by simp))]
      rw [ih (by simp) (fun x hx => hsafe x (List.mem_cons_of_mem _ hx))]

theorem suffix_cons_cases {s : List Char} {c : Char} {t : List Char} (h : s <:+ c :: t) :
    s = c :: t ∨ s <:+ t := by
  obtain ⟨u, hu⟩ := h
  cases u with
  | nil => left; simpa using hu
  | cons d u2 =>
    right
    simp only [List.cons_append, List.cons.injEq] at hu
    exact ⟨u2, hu.2⟩

theorem suffix_append_cases {s a b : List Char} (h : s <:+ a ++ b) :
    s <:+ b ∨ ∃ a2, a2 <:+ a ∧ a2 ≠ [] ∧ s = a2 ++ b := by
  induction a with
  | nil => left; simpa using h
  | cons c a1 ih =>
    rw [List.cons_append] at h
    rcases suffix_cons_cases h with h2 | h2
    · right
      exact ⟨c :: a1, List.suffix_refl _, by simp, by simpa using h2⟩
    · rcases ih h2 with h3 | ⟨a2, ha2, hane, heq⟩
      · left; exact h3
      · right
        exact ⟨a2, ha2.trans (List.suffix_cons c a1), hane, heq⟩

theorem safePart_head_free {h0 : Char} {sepRest p : List Char}
    (h : ∀ c ∈ p, c ≠ h0) : SafePart (h0 :: sepRest) p := by
  intro s hs hne
  cases s with
  | nil => exact absurd rfl hne
  | cons c s2 =>
    have hcp : c ∈ p := hs.subset (by simp)
    have hne0 : (h0 == c) = false := by
      rw [beq_eq_false_iff_ne]
      exact fun he => (h c hcp) he.symm
    simp only [List.cons_append, pfxOf, hne0, Bool.false_and]

theorem suffix_crlf {a : List Char} (h : a <:+ CRLF) (hne : a ≠ []) :
    a = ['\n'] ∨ a = CRLF := by
  obtain ⟨t, ht⟩ := h
  rcases t with _ | ⟨x, _ | ⟨y, t3⟩⟩
  · right; simpa using ht
  · left
    simp only [CRLF, List.cons_append, List.nil_append, List.cons.injEq] at ht
    exact ht.2
  · exfalso
    have hlen := congrArg List.length ht
    simp only [List.length_append, List.length_cons, CRLF] at hlen
    cases a with
    | nil => exact hne rfl
    | cons z zs => simp at hlen; omega

theorem joinSep_head {q : List Char} (qs : List (List Char)) (hq : q ≠ []) :
    ∃ c t, joinSep CRLF (q :: qs) = c :: t ∧ c ∈ q := by
  cases q with
  | nil => exact absurd rfl hq
  | cons c q2 =>
    cases qs with
    | nil => exact ⟨c, q2, rfl, by simp⟩
    | cons q3 qs2 =>
      refine ⟨c, q2 ++ CRLF ++ joinSep CRLF (q3 :: qs2), ?_, by simp⟩
      rw [joinSep_cons2 (by simp)]
      simp

theorem safePart_block : ∀ lines : List (List Char), lines ≠ [] →
    (∀ l ∈ lines, l ≠ [] ∧ ∀ c ∈ l, c ≠ '\r' ∧ c ≠ '\n') →
    SafePart SEP2 (joinSep CRLF lines) := by
  intro lines
  induction lines with
  | nil => intro h _; exact absurd rfl h
  | cons q qs ih =>
    intro _ hl s hs hne
    cases qs with
    | nil =>
      have hj : joinSep CRLF [q] = q := rfl
      rw [hj] at hs
      have hfree : ∀ c ∈ q, c ≠ '\r' := fun c hc => ((hl q (by simp)).2 c hc).1
      exact (safePart_head_free hfree : SafePart SEP2 q) s hs hne
    | cons q2 qs2 =>
      rw [joinSep_cons2 (by simp), List.append_assoc] at hs
      rcases suffix_append_cases hs with h2 | ⟨a2, ha2, hane, heq⟩
      · rcases suffix_append_cases h2 with h3 | ⟨a3, ha3, hane3, heq3⟩
        · exact ih (by simp) (fun l hl2 => hl l (List.mem_cons_of_mem _ hl2)) s h3 hne
        · rcases suffix_crlf ha3 hane3 with hc | hc
          · subst hc
            rw [heq3]
            simp [SEP2, pfxOf]
          · subst hc
            rw [heq3]
            obtain ⟨c, t, hjoin, hcq⟩ := joinSep_head qs2 (hl q2 (by simp)).1
            rw [hjoin]
            have hcr : (('\r' : Char) == c) = false := by
              rw [beq_eq_false_iff_ne]
              exact fun he => (((hl q2 (by simp)).2 c hcq).1) he.symm
            simp [SEP2, CRLF, pfxOf, hcr]
      · rw [heq]
        have hcq : ∀ c ∈ a2, c ∈ q := fun c hc => ha2.subset hc
        cases a2 with
        | nil => exact absurd rfl hane
        | cons c a3 =>
          have hcr : (('\r' : Char) == c) = false := by
            rw [beq_eq_false_iff_ne]
            exact fun he => (((hl q (by simp)).2 c (hcq c (by simp))).1) he.symm
          simp [SEP2, pfxOf, hcr]

theorem joinSep_mem {sep : List Char} : ∀ parts (c : Char), c ∈ joinSep sep parts →
    c ∈ sep ∨ ∃ p ∈ parts, c ∈ p := by
  intro parts
  induction parts with
  | nil => intro c hc; simp [joinSep] at hc
  | cons p ps ih =>
    intro c hc
    cases ps with
    | nil =>
      right
      refine ⟨p, by simp, ?_⟩
      simpa [joinSep] using hc
    | cons q qs =>
      rw [joinSep_cons2 (by simp), List.append_assoc] at hc
      simp only [List.mem_append] at hc
      rcases hc with hc | hc | hc
      · right; exact ⟨p, by simp, hc⟩
      · left; exact hc
      · rcases ih c hc with h | ⟨p2, hp2, hcp⟩
        · left; exact h
        · right; exact ⟨p2, List.mem_cons_of_mem _ hp2, hcp⟩

/-! ### Delimiter-split lemmas for the digest layout -/

theorem splitKD_nil : splitKD [] = [[]] := by rw [splitKD]

theorem splitKD_cons_eq3 {c : Char} {rest : List Char} (h : pfxOf EQ3 (c :: rest) = true) :
    splitKD (c :: rest) = [] :: EQ3 :: splitKD ((c :: rest).drop 3) := by
  rw [splitKD, if_pos h]

theorem splitKD_cons_nomatch {c : Char} {rest : List Char}
    (h1 : pfxOf EQ3 (c :: rest) = false) (h2 : pfxOf DASH6 (c :: rest) = false) :
    splitKD (c :: rest) =
      match splitKD rest with
      | [] => [[c]]
      | s :: ss => (c :: s) :: ss := by
  rw [splitKD, if_neg (by simp [h1]), if_neg (by simp [h2])]

theorem pfxEQ3_false {c : Char} (rest : List Char) (hc : c ≠ '=') :
    pfxOf EQ3 (c :: rest) = false := by
  have hb : (('=' : Char) == c) = false := by
    rw [beq_eq_false_iff_ne]
    exact fun he => hc he.symm
  simp only [EQ3, pfxOf, hb, Bool.false_and]

theorem pfxDASH6_false {c : Char} (rest : List Char) (hc : c ≠ '-') :
    pfxOf DASH6 (c :: rest) = false := by
  have hb : (('-' : Char) == c) = false := by
    rw [beq_eq_false_iff_ne]
    exact fun he => hc he.symm
  simp only [DASH6, pfxOf, hb, Bool.false_and]

theorem splitKD_clean : ∀ a : List Char, (∀ c ∈ a, c ≠ '=' ∧ c ≠ '-') →
    splitKD a = [a] := by
  intro a
  induction a with
  | nil => intro _; exact splitKD_nil
  | cons c rest ih =>
    intro h
    have hc := h c (by simp)
    rw [splitKD_cons_nomatch (pfxEQ3_false rest hc.1) (pfxDASH6_false rest hc.2)]
    rw [ih (fun x hx => h x (List.mem_cons_of_mem _ hx))]

theorem splitKD_clean_append : ∀ a rest : List Char, (∀ c ∈ a, c ≠ '=' ∧ c ≠ '-') →
    splitKD (a ++ EQ3 ++ rest) = a :: EQ3 :: splitKD rest := by
  intro a
  induction a with
  | nil =>
    intro rest _
    simp only [List.nil_append]
    have hp : pfxOf EQ3 (EQ3 ++ rest) = true := pfx_append_self _ _
    rw [show EQ3 ++ rest = '=' :: '=' :: '=' :: rest from rfl] at hp ⊢
    rw [splitKD_cons_eq3 hp]
    rfl
  | cons c a1 ih =>
    intro rest h
    have hc := h c (by simp)
    have hform : (c :: a1) ++ EQ3 ++ rest = c :: (a1 ++ EQ3 ++ rest) := by simp
    rw [hform]
    rw [splitKD_cons_nomatch (pfxEQ3_false _ hc.1) (pfxDASH6_false _ hc.2)]
    rw [ih rest (fun x hx => h x (List.mem_cons_of_mem _ hx))]

theorem dropEnds_eq (hdr ftr : List Char) (blocks : List (List Char)) :
    dropEnds (hdr :: (blocks ++ [ftr])) = blocks := by
  unfold dropEnds
  simp

theorem parseBlock_mk {lines : List (List Char)} {url : List Char}
    (hm : ∀ l ∈ lines ++ [url], ∀ c ∈ l, c ≠ '\r') :
    parseBlock (mkBlock lines url) = (pyStrip lines.flatten, pyStrip url) := by
  unfold parseBlock mkBlock CRLF
  rw [splitOnSep_joinSep (by simp) (lines ++ [url]) (by simp)
    (fun p hp => (safePart_head_free (fun c hc => hm p hp c hc) :
      SafePart ['\r', '\n'] p))]
  simp

/-- Claim C1: article extraction round-trip.  For a synthetic digest body
built per the layout conventions (two delimiters before the article section,
blank-line separated blocks with header/footer boilerplate, each block being
CRLF-joined summary lines followed by a URL line), extraction returns
exactly one article per block, whose summary is the concatenation of the
summary lines (newlines removed, trimmed) and whose URL is the trimmed URL
line (main.py lines 159-164). -/
theorem extractRaw_roundTrip
    (arts : List (List (List Char) × List Char)) (pre0 pre1 hdr ftr : List Char)
    (hpre0 : ∀ c ∈ pre0, c ≠ '=' ∧ c ≠ '-')
    (hpre1 : ∀ c ∈ pre1, c ≠ '=' ∧ c ≠ '-')
    (hhdr : ∀ c ∈ hdr, c ≠ '\r' ∧ c ≠ '=' ∧ c ≠ '-')
    (hftr : ∀ c ∈ ftr, c ≠ '\r' ∧ c ≠ '=' ∧ c ≠ '-')
    (harts : ∀ a ∈ arts,
      (∀ l ∈ a.1 ++ [a.2], l ≠ [] ∧ ∀ c ∈ l, c ≠ '\r' ∧ c ≠ '\n' ∧ c ≠ '=' ∧ c ≠ '-')) :
    extractRaw (mkBody pre0 pre1 (mkSection hdr ftr (arts.map (fun a => mkBlock a.1 a.2))))
      = some (arts.map (fun a => (pyStrip a.1.flatten, pyStrip a.2))) := by
  have hblockmem : ∀ a ∈ arts, ∀ c ∈ mkBlock a.1 a.2,
      c = '\r' ∨ c = '\n' ∨ ∃ l ∈ a.1 ++ [a.2], c ∈ l := by
    intro a ha c hc
    rcases joinSep_mem _ c hc with hsep | ⟨p, hp, hcp⟩
    · rcases (by simpa [CRLF] using hsep : c = '\r' ∨ c = '\n') with h | h
      · left; exact h
      · right; left; exact h
    · right; right; exact ⟨p, hp, hcp⟩
  have hsecmem : ∀ c ∈ mkSection hdr ftr (arts.map (fun a => mkBlock a.1 a.2)),
      c ≠ '=' ∧ c ≠ '-' := by
    intro c hc
    rcases joinSep_mem _ c hc with hsep | ⟨p, hp, hcp⟩
    · have hsep2 : c = '\r' ∨ c = '\n' ∨ c = '\r' ∨ c = '\n' := by simpa [SEP2] using hsep
      have hsep3 : c = '\r' ∨ c = '\n' := by tauto
      rcases hsep3 with h | h <;> (subst h; exact ⟨by decide, by decide⟩)
    · rcases List.mem_cons.mp hp with hph | hpt
      · subst hph
        exact ⟨(hhdr c hcp).2.1, (hhdr c hcp).2.2⟩
      · rcases List.mem_append.mp hpt with hpb | hpf
        · obtain ⟨a, ha, hpa⟩ := List.mem_map.mp hpb
          subst hpa
          rcases hblockmem a ha c hcp with h | h | ⟨l, hl, hcl⟩
          · subst h; exact ⟨by decide, by decide⟩
          · subst h; exact ⟨by decide, by decide⟩
          · exact ⟨((harts a ha l hl).2 c hcl).2.2.1, ((harts a ha l hl).2 c hcl).2.2.2⟩
        · have hpf2 : p = ftr := by simpa using hpf
          subst hpf2
          exact ⟨(hftr c hcp).2.1, (hftr c hcp).2.2⟩
  unfold extractRaw mkBody
  rw [splitKD_clean_append pre0 _ hpre0, splitKD_clean_append pre1 _ hpre1,
    splitKD_clean _ hsecmem]
  simp only [List.get?]
  unfold mkSection
  rw [splitOnSep_joinSep (by simp [SEP2]) _ (by simp) ?safe]
  case safe =>
    intro p hp
    rcases List.mem_cons.mp hp with hph | hpt
    · subst hph
      exact safePart_head_free (fun c hc => (hhdr c hc).1)
    · rcases List.mem_append.mp hpt with hpb | hpf
      · obtain ⟨a, ha, hpa⟩ := List.mem_map.mp hpb
        subst hpa
        apply safePart_block (a.1 ++ [a.2]) (by simp)
        intro l hl
        exact ⟨(harts a ha l hl).1,
          fun c hc => ⟨((harts a ha l hl).2 c hc).1, ((harts a ha l hl).2 c hc).2.1⟩⟩
      · have hpf2 : p = ftr := by simpa using hpf
        subst hpf2
        exact safePart_head_free (fun c hc => (hftr c hc).1)
  rw [dropEnds_eq]
  rw [List.map_map]
  simp only [Option.some.injEq]
  apply List.map_congr_left
  intro a ha
  show parseBlock (mkBlock a.1 a.2) = _
  exact parseBlock_mk (fun l hl c hc => ((harts a ha l hl).2 c hc).1)

/-! ### Canonicalization counterexample and amended behaviour (claim C2) -/

/-- Claim C2, counterexample: on `"ahttpbhttpc"` — a string with two `http`
occurrences and text before the first — the code's
`re.sub('http.*http', 'http', url)` keeps the text before the first `http`
(it replaces only the matched span), yielding `"ahttpc"`, while the claim's
description (keep only the text from the second `http` onward, discarding
everything before it) yields `"httpc"`.  So the claim as stated is false at
this input. -/
theorem canonicalize_ne_claimSpec :
    canonicalize "ahttpbhttpc".toList = "ahttpc".toList ∧
    canonSpecClaim "ahttpbhttpc".toList = "httpc".toList ∧
    canonicalize "ahttpbhttpc".toList ≠ canonSpecClaim "ahttpbhttpc".toList := by
  have h1 : canonicalize "ahttpbhttpc".toList = "ahttpc".toList := by
    simp [canonicalize, rmAngles, subH, subCt, matchLenH, matchLenCt, pfxOf, HT, CTpat,
      lastHttpEnd]
  have h2 : canonSpecClaim "ahttpbhttpc".toList = "httpc".toList := by decide
  refine ⟨h1, h2, ?_⟩
  rw [h1, h2]
  decide

/-- Claim C2 (amended): canonicalization removes every `<`/`>`; then
replaces each leftmost greedy match of `http.*http` — spanning from the
first `http` through the last `http` not separated from it by a newline —
with `http`, keeping any text before the first occurrence; then deletes
each occurrence of `&ct=ga&` together with everything following it up to
the end of the line.  The claim's three examples hold, and text before the
first `http` is kept. -/
theorem canonicalize_cases :
    canonicalize "<http://a.example/x>".toList = "http://a.example/x".toList ∧
    canonicalize "http://wrap.example/r?u=http://real.example/p".toList
      = "http://real.example/p".toList ∧
    canonicalize "http://a.example/p&ct=ga&cd=123".toList = "http://a.example/p".toList ∧
    canonicalize "XhttpA?u=httpB".toList = "XhttpB".toList := by
  refine ⟨?_, ?_, ?_, ?_⟩ <;>
    simp [canonicalize, rmAngles, subH, subCt, matchLenH, matchLenCt, pfxOf, HT, CTpat,
      lastHttpEnd]

/-! ### The deduplication gate (claims C4 and C10) -/

theorem dedup_sublist : ∀ (xs : List Article) (st : DState),
    ∃ kept, (xs.foldl dedupStep st).1 = st.1 ++ kept ∧ List.Sublist kept xs := by
  intro xs
  induction xs with
  | nil => intro st; exact ⟨[], by simp, by simp⟩
  | cons x xs2 ih =>
    intro st
    simp only [List.foldl_cons]
    by_cases hx : x.2 ∈ st.2
    · have hstep : dedupStep st x = st := by simp [dedupStep, hx]
      rw [hstep]
      obtain ⟨kept, hk, hs⟩ := ih st
      exact ⟨kept, hk, hs.cons x⟩
    · have hstep : dedupStep st x = (st.1 ++ [x], st.2 ++ [x.2]) := by simp [dedupStep, hx]
      rw [hstep]
      obtain ⟨kept, hk, hs⟩ := ih (st.1 ++ [x], st.2 ++ [x.2])
      refine ⟨x :: kept, ?_, hs.cons₂ x⟩
      rw [hk]
      simp

/-- Claim C4: the deduplication gate processes articles in discovery order,
keeps the first occurrence of each distinct canonical URL, silently drops
later occurrences, and preserves the relative order of kept articles: the
kept articles always form an in-order sublist of the processed stream, and
on the stream `[A(u1), B(u2), C(u1)]` with `u1 ≠ u2` exactly `[A, B]`
survives (main.py lines 168-173). -/
theorem dedup_firstWins (A B C u1 u2 : List Char) (h : u1 ≠ u2) :
    (([((A, u1) : Article), (B, u2), (C, u1)]).foldl dedupStep ([], [])).1
        = [(A, u1), (B, u2)] ∧
      ∀ (xs : List Article) (st : DState),
        ∃ kept, (xs.foldl dedupStep st).1 = st.1 ++ kept ∧ List.Sublist kept xs := by
  constructor
  · simp [dedupStep, h, Ne.symm h]
  · exact dedup_sublist

theorem dedup_firstWins_wit :
    ("u1".toList ≠ "u2".toList) ∧
    (([(("A".toList, "u1".toList) : Article), ("B".toList, "u2".toList),
        ("C".toList, "u1".toList)]).foldl dedupStep ([], [])).1
      = [("A".toList, "u1".toList), ("B".toList, "u2".toList)] := by
  refine ⟨by decide, ?_⟩
  exact (dedup_firstWins "A".toList "B".toList "C".toList "u1".toList "u2".toList
    (by decide)).1

theorem dedupStep_inv {st : DState} {x : Article} (h : Inv st) : Inv (dedupStep st x) := by
  by_cases hx : x.2 ∈ st.2
  · simpa [dedupStep, hx] using h
  · unfold Inv at h ⊢
    simp only [dedupStep, if_neg hx]
    constructor
    · simp [h.1]
    · rw [List.nodup_append]
      refine ⟨h.2, List.nodup_singleton _, ?_⟩
      intro a ha hb
      have hax : a = x.2 := by simpa using hb
      subst hax
      exact hx ha

theorem dedupFold_inv : ∀ (xs : List Article) (st : DState), Inv st →
    Inv (xs.foldl dedupStep st) := by
  intro xs
  induction xs with
  | nil => intro st h; exact h
  | cons x xs2 ih =>
    intro st h
    simp only [List.foldl_cons]
    exact ih _ (dedupStep_inv h)

theorem processEmails_inv : ∀ (emails : List Email) (st : DState) (res : DState),
    Inv st → processEmails emails st = some res → Inv res := by
  intro emails
  induction emails with
  | nil =>
    intro st res h hp
    simp only [processEmails, Option.some.injEq] at hp
    rwa [← hp]
  | cons e rest ih =>
    intro st res h hp
    simp only [processEmails] at hp
    cases hx : extractRaw e.body with
    | none => rw [hx] at hp; simp at hp
    | some arts =>
      rw [hx] at hp
      exact ih _ res (dedupFold_inv _ _ h) hp

/-- Claim C10: loop invariant of the extraction/dedup pass — the
deduplication step preserves the invariant that the seen-URL accumulator
coincides, in order, with the canonical URLs of the accumulated articles
and is duplicate-free; consequently, whenever the pass completes, the raw
digest's article list never carries the same canonical URL twice
(main.py lines 157-177). -/
theorem pipeline_inv :
    (∀ (st : DState) (x : Article), Inv st → Inv (dedupStep st x)) ∧
    (∀ (emails : List Email) (res : DState), runPipeline emails = some res →
      Inv res ∧ (res.1.map Prod.snd).Nodup) := by
  constructor
  · exact fun st x h => dedupStep_inv h
  · intro emails res hp
    have hinv : Inv res :=
      processEmails_inv emails ([], []) res ⟨rfl, List.nodup_nil⟩ hp
    refine ⟨hinv, ?_⟩
    rw [← hinv.1]
    exact hinv.2

theorem pipeline_inv_wit :
    (runPipeline [(⟨"s", "f", PyDatetime.naive 0,
        ("A===B===H\r\n\r\nS1\r\nhttp://u1\r\n\r\nF").toList⟩ : Email)]
      = some ([("S1".toList, "http://u1".toList)], ["http://u1".toList])) ∧
    (Inv ([("S1".toList, "http://u1".toList)], ["http://u1".toList]) ∧
      ((([("S1".toList, "http://u1".toList)], ["http://u1".toList]) : DState).1.map
        Prod.snd).Nodup) := by
  have h1 : runPipeline [(⟨"s", "f", PyDatetime.naive 0,
      ("A===B===H\r\n\r\nS1\r\nhttp://u1\r\n\r\nF").toList⟩ : Email)]
      = some ([("S1".toList, "http://u1".toList)], ["http://u1".toList]) := by
    simp [runPipeline, processEmails, extractRaw, splitKD, splitOnSep, pfxOf, EQ3, DASH6,
      SEP2, CRLF, dropEnds, parseBlock, pyStrip, isPySpace, canonicalize, rmAngles, subH,
      subCt, matchLenH, matchLenCt, lastHttpEnd, HT, CTpat, dedupStep]
  exact ⟨h1, pipeline_inv.2 _ _ h1⟩

/-! ### Structural parse failure (claim C9) -/

/-- Claim C9: a body whose delimiter-keeping split yields fewer than 5
segments makes article extraction hit the out-of-range index 4 — modelled
as `none` for the `IndexError` of `re.split(...)[4]` — and the failure
propagates through the message loop: the whole run aborts instead of
skipping the message or producing an empty article list
(main.py line 161). -/
theorem extract_indexFault (e : Email) (rest : List Email) (st : DState)
    (h : (splitKD e.body).length < 5) :
    extractRaw e.body = none ∧ processEmails (e :: rest) st = none := by
  have hx : extractRaw e.body = none := by
    unfold extractRaw
    rw [List.get?_eq_none.mpr (by omega)]
  refine ⟨hx, ?_⟩
  simp [processEmails, hx]

theorem extract_indexFault_wit :
    ((splitKD "hello".toList).length < 5) ∧
    (extractRaw "hello".toList = none ∧
      processEmails [(⟨"s", "f", PyDatetime.naive 0, "hello".toList⟩ : Email)] ([], []) = none) := by
  have hlen : (splitKD "hello".toList).length < 5 := by
    simp [splitKD, pfxOf, EQ3, DASH6]
  exact ⟨hlen, extract_indexFault ⟨"s", "f", PyDatetime.naive 0, "hello".toList⟩ [] ([], []) hlen⟩

/-! ### The descending stable sort (claims C5 and C6) -/

theorem pyDtLt_some_iff {a b : PyDatetime} {t : Bool} (h : pyDtLt a b = some t) :
    t = true ↔ dVal a < dVal b := by
  cases a with
  | aware x =>
    cases b with
    | aware y =>
      simp only [pyDtLt, Option.some.injEq] at h
      subst h
      simp [dVal]
    | naive y => simp [pyDtLt] at h
  | naive x =>
    cases b with
    | aware y => simp [pyDtLt] at h
    | naive y =>
      simp only [pyDtLt, Option.some.injEq] at h
      subst h
      simp [dVal]

theorem insertDescE_perm : ∀ {acc r : List Email} {x : Email},
    insertDescE x acc = some r → r.Perm (x :: acc) := by
  intro acc
  induction acc with
  | nil =>
    intro r x h
    simp only [insertDescE, Option.some.injEq] at h
    rw [← h]
  | cons y ys ih =>
    intro r x h
    simp only [insertDescE] at h
    cases hq : pyDtLt y.date x.date with
    | none => rw [hq] at h; simp at h
    | some b =>
      rw [hq] at h
      cases b with
      | true =>
        simp only [Option.some.injEq] at h
        rw [← h]
      | false =>
        cases hz : insertDescE x ys with
        | none => rw [hz] at h; simp at h
        | some zs =>
          rw [hz] at h
          simp only [Option.some.injEq] at h
          rw [← h]
          exact ((ih hz).cons y).trans (List.Perm.swap x y ys)

theorem insertDescE_sorted : ∀ {acc r : List Email} {x : Email},
    List.Pairwise DGE acc → insertDescE x acc = some r → List.Pairwise DGE r := by
  intro acc
  induction acc with
  | nil =>
    intro r x _ h
    simp only [insertDescE, Option.some.injEq] at h
    rw [← h]
    simp
  | cons y ys ih =>
    intro r x hs h
    simp only [insertDescE] at h
    cases hq : pyDtLt y.date x.date with
    | none => rw [hq] at h; simp at h
    | some b =>
      rw [hq] at h
      cases b with
      | true =>
        simp only [Option.some.injEq] at h
        rw [← h]
        have hyx : dVal y.date < dVal x.date := (pyDtLt_some_iff hq).mp rfl
        refine List.Pairwise.cons ?_ hs
        intro z hz
        rcases List.mem_cons.mp hz with hz | hz
        · subst hz
          exact le_of_lt hyx
        · have := (List.pairwise_cons.mp hs).1 z hz
          unfold DGE at this ⊢
          omega
      | false =>
        cases hz : insertDescE x ys with
        | none => rw [hz] at h; simp at h
        | some zs =>
          rw [hz] at h
          simp only [Option.some.injEq] at h
          rw [← h]
          have hxy : ¬ dVal y.date < dVal x.date := by
            intro hcon
            have := (pyDtLt_some_iff hq).mpr hcon
            simp at this
          refine List.Pairwise.cons ?_ (ih (List.pairwise_cons.mp hs).2 hz)
          intro z hzz
          have hzmem : z ∈ x :: ys := (insertDescE_perm hz).mem_iff.mp hzz
          rcases List.mem_cons.mp hzmem with hz2 | hz2
          · subst hz2
            unfold DGE
            omega
          · exact (List.pairwise_cons.mp hs).1 z hz2

theorem insertDescE_filter (d : PyDatetime) : ∀ {acc r : List Email} {x : Email},
    List.Pairwise DGE acc → insertDescE x acc = some r →
    r.filter (fun m => m.date == d)
      = if x.date == d then acc.filter (fun m => m.date == d) ++ [x]
        else acc.filter (fun m => m.date == d) := by
  intro acc
  induction acc with
  | nil =>
    intro r x _ h
    simp only [insertDescE, Option.some.injEq] at h
    rw [← h]
    by_cases hp : (x.date == d) = true <;> simp [List.filter_cons, hp]
  | cons y ys ih =>
    intro r x hs h
    simp only [insertDescE] at h
    cases hq : pyDtLt y.date x.date with
    | none => rw [hq] at h; simp at h
    | some b =>
      rw [hq] at h
      cases b with
      | true =>
        simp only [Option.some.injEq] at h
        rw [← h]
        have hyx : dVal y.date < dVal x.date := (pyDtLt_some_iff hq).mp rfl
        by_cases hp : (x.date == d) = true
        · have hnil : (y :: ys).filter (fun m => m.date == d) = [] := by
            rw [List.filter_eq_nil_iff]
            intro z hz hzd
            have hzle : dVal z.date ≤ dVal y.date := by
              rcases List.mem_cons.mp hz with hz2 | hz2
              · subst hz2; exact le_rfl
              · exact (List.pairwise_cons.mp hs).1 z hz2
            have hzd2 : z.date = d := by simpa using hzd
            have hxd : x.date = d := by simpa using hp
            rw [← hxd] at hzd2
            rw [hzd2] at hzle
            omega
          rw [if_pos hp, List.filter_cons, if_pos hp, hnil]
          simp
        · rw [if_neg hp, List.filter_cons, if_neg hp]
      | false =>
        cases hz : insertDescE x ys with
        | none => rw [hz] at h; simp at h
        | some zs =>
          rw [hz] at h
          simp only [Option.some.injEq] at h
          rw [← h]
          have hzs := ih (List.pairwise_cons.mp hs).2 hz
          by_cases hy : (y.date == d) = true
          · rw [List.filter_cons, if_pos hy, hzs, List.filter_cons, if_pos hy]
            by_cases hp : (x.date == d) = true <;> simp [hp]
          · rw [List.filter_cons, if_neg hy, hzs, List.filter_cons, if_neg hy]

theorem sortAuxE_props (d : PyDatetime) : ∀ (l acc res : List Email),
    List.Pairwise DGE acc → sortAuxE l acc = some res →
    List.Pairwise DGE res ∧ res.Perm (acc ++ l) ∧
      res.filter (fun m => m.date == d)
        = acc.filter (fun m => m.date == d) ++ l.filter (fun m => m.date == d) := by
  intro l
  induction l with
  | nil =>
    intro acc res hs h
    simp only [sortAuxE, Option.some.injEq] at h
    subst h
    exact ⟨hs, by simp, by simp⟩
  | cons x xs ih =>
    intro acc res hs h
    simp only [sortAuxE] at h
    cases hz : insertDescE x acc with
    | none => rw [hz] at h; simp at h
    | some acc2 =>
      rw [hz] at h
      have hsort2 := insertDescE_sorted hs hz
      obtain ⟨ha, hb, hc⟩ := ih acc2 res hsort2 h
      refine ⟨ha, ?_, ?_⟩
      · have hperm := insertDescE_perm hz
        have h1 : res.Perm (acc2 ++ xs) := hb
        have h2 : (acc2 ++ xs).Perm ((x :: acc) ++ xs) := hperm.append_right xs
        have h3 : ((x :: acc) ++ xs).Perm (acc ++ x :: xs) := by
          simpa using List.perm_middle.symm
        exact (h1.trans h2).trans h3
      · rw [hc, insertDescE_filter d hs hz]
        by_cases hp : (x.date == d) = true
        · rw [if_pos hp, List.filter_cons, if_pos hp]
          simp
        · rw [if_neg hp, List.filter_cons, if_neg hp]

/-- Claim C6: whenever message retrieval returns (no `TypeError` escapes the
sort), the returned list is sorted by the normalized timestamp in
descending order, it is a permutation of the per-message records, and the
sort is stable: for every date value, the subsequence of messages carrying
it equals the provider-order subsequence (main.py lines 76-140). -/
theorem getEmails_sorted (strptime : String → List Char → Option Int) (now : Int)
    (msgs : List Payload) (res : List Email)
    (h : getEmails strptime now msgs = some res) :
    List.Pairwise DGE res ∧ res.Perm (msgs.map (buildEmail strptime now)) ∧
      ∀ d, res.filter (fun m => m.date == d)
        = (msgs.map (buildEmail strptime now)).filter (fun m => m.date == d) := by
  unfold getEmails sortEmailsE at h
  refine ⟨(sortAuxE_props (PyDatetime.naive 0) _ _ _ (by simp) h).1, ?_, ?_⟩
  · have := (sortAuxE_props (PyDatetime.naive 0) _ _ _ (by simp) h).2.1
    simpa using this
  · intro d
    have := (sortAuxE_props d _ _ _ (by simp) h).2.2
    simpa using this

theorem getEmails_sorted_wit :
    (getEmails spOracle 42 [msgBad] = some [buildEmail spOracle 42 msgBad]) ∧
    List.Pairwise DGE [buildEmail spOracle 42 msgBad] ∧
    ([buildEmail spOracle 42 msgBad].Perm ([msgBad].map (buildEmail spOracle 42))) ∧
    ([buildEmail spOracle 42 msgBad].filter (fun m => m.date == PyDatetime.naive 42)
      = ([msgBad].map (buildEmail spOracle 42)).filter
          (fun m => m.date == PyDatetime.naive 42)) := by
  have h1 : getEmails spOracle 42 [msgBad] = some [buildEmail spOracle 42 msgBad] := by
    simp [getEmails, sortEmailsE, sortAuxE, insertDescE]
  exact ⟨h1, (getEmails_sorted _ _ _ _ h1).1, (getEmails_sorted _ _ _ _ h1).2.1,
    (getEmails_sorted _ _ _ _ h1).2.2 _⟩

/-- Claim C5 (bug evidence): date normalization itself never fails — with no
matching format it falls back to the (offset-naive) current wall-clock
time, and with a matching `%z` format it yields an offset-aware value — but
the fallback does not survive the sort: with one parsed (aware) date and
one fallback (naive) date in the same run, the `list.sort` key comparison
raises `TypeError` (modelled as `none`), aborting the run instead of
letting the fallback message participate in the descending sort
(main.py lines 89-113 and 138). -/
theorem normalize_fallback_sort_raises :
    normalizeDate spOracle 42 "not a date".toList = PyDatetime.naive 42 ∧
    normalizeDate spOracle 42 "Mon, 05 May 2025 10:00:00 +0900".toList
      = PyDatetime.aware 1746410400 ∧
    getEmails spOracle 42 [msgGood, msgBad] = none := by
  refine ⟨?_, ?_, ?_⟩
  · simp [normalizeDate, dateFormats, spOracle, cleanDate, rmParen, matchLenPar, pyStrip,
      isPySpace, List.findSome?]
  · simp [normalizeDate, dateFormats, spOracle, cleanDate, rmParen, matchLenPar, pyStrip,
      isPySpace, List.findSome?]
  · simp [getEmails, sortEmailsE, sortAuxE, insertDescE, buildEmail, normalizeDate,
      dateFormats, spOracle, cleanDate, rmParen, matchLenPar, pyStrip, isPySpace,
      List.findSome?, getHeader, List.find?, msgGood, msgBad, extractBody, pyDtLt]

/-! ### Body extraction preference (claim C7) -/

/-- Claim C7, counterexample: a multi-part payload with no `text/plain`
part but with top-level body data yields the empty body — the `elif` of
main.py line 122 is not reached when the `parts` key exists — not the
top-level body that the claim promises. -/
theorem extractBody_ne_claim :
    extractBody ⟨[], some [⟨"text/html", "X".toList⟩], some "TOP".toList⟩ = [] ∧
    extractBodyClaim ⟨[], some [⟨"text/html", "X".toList⟩], some "TOP".toList⟩
      = "TOP".toList ∧
    extractBody ⟨[], some [⟨"text/html", "X".toList⟩], some "TOP".toList⟩
      ≠ extractBodyClaim ⟨[], some [⟨"text/html", "X".toList⟩], some "TOP".toList⟩ := by
  refine ⟨?_, ?_, ?_⟩ <;> simp [extractBody, extractBodyClaim, List.find?]

/-- Claim C7 (amended): when the payload has a `parts` key, body extraction
uses the first `text/plain` part and yields the empty string if no part
matches — even when top-level body data exists; only when there is no
`parts` key is the top-level body data used (empty string when absent).
Missing Subject/From/Date headers default to "No Subject"/"Unknown"/""
(main.py lines 84-123). -/
theorem extractBody_amended :
    (∀ (hs : List (String × String)) (ps : List Part) (bd : Option (List Char)) (part : Part),
        List.find? (fun p => p.mimeType == "text/plain") ps = some part →
        extractBody ⟨hs, some ps, bd⟩ = part.dataTxt) ∧
    (∀ (hs : List (String × String)) (ps : List Part) (bd : Option (List Char)),
        (∀ p ∈ ps, p.mimeType ≠ "text/plain") →
        extractBody ⟨hs, some ps, bd⟩ = []) ∧
    (∀ (hs : List (String × String)) (d : List Char),
        extractBody ⟨hs, none, some d⟩ = d) ∧
    (∀ hs : List (String × String), extractBody ⟨hs, none, none⟩ = []) ∧
    (∀ hs : List (String × String), (∀ h ∈ hs, h.1 ≠ "Subject") →
        getHeader hs "Subject" "No Subject" = "No Subject") ∧
    (∀ hs : List (String × String), (∀ h ∈ hs, h.1 ≠ "From") →
        getHeader hs "From" "Unknown" = "Unknown") ∧
    (∀ hs : List (String × String), (∀ h ∈ hs, h.1 ≠ "Date") →
        getHeader hs "Date" "" = "") := by
  refine ⟨?_, ?_, ?_, ?_, ?_, ?_, ?_⟩
  · intro hs ps bd part hfind
    simp [extractBody, hfind]
  · intro hs ps bd hnone
    have hf : List.find? (fun p => p.mimeType == "text/plain") ps = none := by
      rw [List.find?_eq_none]
      intro p hp
      simpa using hnone p hp
    simp [extractBody, hf]
  · intro hs d; simp [extractBody]
  · intro hs; simp [extractBody]
  · intro hs hnone
    have hf : List.find? (fun h => h.1 == "Subject") hs = none := by
      rw [List.find?_eq_none]
      intro p hp
      simpa using hnone p hp
    simp [getHeader, hf]
  · intro hs hnone
    have hf : List.find? (fun h => h.1 == "From") hs = none := by
      rw [List.find?_eq_none]
      intro p hp
      simpa using hnone p hp
    simp [getHeader, hf]
  · intro hs hnone
    have hf : List.find? (fun h => h.1 == "Date") hs = none := by
      rw [List.find?_eq_none]
      intro p hp
      simpa using hnone p hp
    simp [getHeader, hf]

theorem extractBody_amended_wit :
    ((∀ p ∈ [(⟨"text/html", "X".toList⟩ : Part)], p.mimeType ≠ "text/plain") ∧
      extractBody ⟨[], some [(⟨"text/html", "X".toList⟩ : Part)], some "TOP".toList⟩
        = []) := by
  refine ⟨by decide, ?_⟩
  exact extractBody_amended.2.1 [] [⟨"text/html", "X".toList⟩] (some "TOP".toList)
    (by decide)

/-! ### Window arithmetic and output filenames (claim C8) -/

/-- Claim C8: the digest window's end date is the start date plus exactly
6 days (via ordinal arithmetic, as `timedelta(days=6)` computes it), both
dates are rendered `YYYY/MM/DD` in the mailbox query, and the two output
filenames are the slash-stripped window bounds; for start 2025-05-05 the
end is 2025-05-11 and the filenames are `output_20250505-20250511.txt` and
`output_20250505-20250511_formatted.txt` (main.py lines 148-151, 179-181
and 225). -/
theorem window_filenames :
    (∀ (dt : Date) (subj : List Char),
        queryOf subj dt = "subject:".toList ++ subj ++ " after:".toList ++ fmtYMD dt
          ++ " before:".toList ++ fmtYMD (addDays 6 dt)) ∧
    addDays 6 ⟨2025, 5, 5⟩ = ⟨2025, 5, 11⟩ ∧
    fmtYMD ⟨2025, 5, 5⟩ = "2025/05/05".toList ∧
    fmtYMD (addDays 6 ⟨2025, 5, 5⟩) = "2025/05/11".toList ∧
    queryOf "AWS".toList ⟨2025, 5, 5⟩
      = "subject:AWS after:2025/05/05 before:2025/05/11".toList ∧
    outName ⟨2025, 5, 5⟩ = "output_20250505-20250511.txt".toList ∧
    outNameFmt ⟨2025, 5, 5⟩ = "output_20250505-20250511_formatted.txt".toList := by
  refine ⟨fun dt subj => rfl, ?_, ?_, ?_, ?_, ?_, ?_⟩
  · decide
  · decide
  · decide
  · decide
  · simp [outName, replaceAll, splitOnSep, joinSep, pfxOf, fmtYMD, padTo, natChars,
      natCharsF, digitChar, addDays, toOrdinal, fromOrdinal, findMonthAux, monthDays,
      isLeap]
  · simp [outNameFmt, outName, replaceAll, splitOnSep, joinSep, pfxOf, fmtYMD, padTo,
      natChars, natCharsF, digitChar, addDays, toOrdinal, fromOrdinal, findMonthAux,
      monthDays, isLeap]

theorem extractRaw_roundTrip_wit :
    ((∀ c ∈ "Top".toList, c ≠ '=' ∧ c ≠ '-') ∧
     (∀ c ∈ "Pre".toList, c ≠ '=' ∧ c ≠ '-') ∧
     (∀ c ∈ "Hdr".toList, c ≠ '\r' ∧ c ≠ '=' ∧ c ≠ '-') ∧
     (∀ c ∈ "Ftr".toList, c ≠ '\r' ∧ c ≠ '=' ∧ c ≠ '-') ∧
     (∀ a ∈ [((["sum one".toList, "sum two".toList], "http://u1?x".toList) :
          List (List Char) × List Char)],
        ∀ l ∈ a.1 ++ [a.2], l ≠ [] ∧ ∀ c ∈ l, c ≠ '\r' ∧ c ≠ '\n' ∧ c ≠ '=' ∧ c ≠ '-')) ∧
    extractRaw (mkBody "Top".toList "Pre".toList
        (mkSection "Hdr".toList "Ftr".toList
          ([((["sum one".toList, "sum two".toList], "http://u1?x".toList) :
              List (List Char) × List Char)].map (fun a => mkBlock a.1 a.2))))
      = some ([((["sum one".toList, "sum two".toList], "http://u1?x".toList) :
          List (List Char) × List Char)].map
            (fun a => (pyStrip a.1.flatten, pyStrip a.2))) := by
  refine ⟨⟨by decide, by decide, by decide, by decide, by decide⟩, ?_⟩
  exact extractRaw_roundTrip _ _ _ _ _ (by decide) (by decide) (by decide) (by decide)
    (by decide)

end AwsNews
